import Mathlib

set_option maxHeartbeats 1000000
set_option linter.unusedVariables false
set_option linter.unnecessarySeqFocus false

namespace MockMock

/-- JSON-like runtime values of the mocked server (shallow embedding of the
TypeScript `unknown` values flowing through the data store and generator).
JS numbers are modelled as integers: every identifier and delay manipulated
by the code under verification is integral. `undef` models JS `undefined`,
distinct from JSON `null`. -/
inductive Json where
  | null : Json
  | undef : Json
  | bool : Bool → Json
  | num : Int → Json
  | str : String → Json
  | arr : List Json → Json
  | obj : List (String × Json) → Json

/-- Structural size of a Json value (used as generator fuel). -/
def jsize : Json → Nat
  | .null => 1
  | .undef => 1
  | .bool _ => 1
  | .num _ => 1
  | .str _ => 1
  | .arr xs => 1 + (xs.attach.map (fun x => jsize x.1)).sum
  | .obj kvs => 1 + (kvs.attach.map (fun p => jsize p.1.2)).sum
decreasing_by
  · exact Nat.lt_trans (List.sizeOf_lt_of_mem x.2) (by simp)
  · have h1 : sizeOf p.1 < sizeOf kvs := List.sizeOf_lt_of_mem p.2
    have h2 : sizeOf p.1.2 < sizeOf p.1 := by
      obtain ⟨a, b⟩ := p.1
      simp
    simp
    omega

/-- A JS object: insertion-ordered key/value pairs (keys unique in any
object produced by `JSON.parse` or an object literal). -/
abbrev Obj := List (String × Json)

def keysOf (o : Obj) : List String := o.map (·.1)

/-- Property read on a JS object. -/
def getField (o : Obj) (k : String) : Option Json :=
  (o.find? (fun p => p.1 = k)).map (·.2)

/-- Property write on a JS object: updates in place if the key exists,
otherwise appends (JS property-assignment order semantics). -/
def setField (o : Obj) (k : String) (v : Json) : Obj :=
  if o.any (fun p => p.1 = k) then
    o.map (fun p => if p.1 = k then (k, v) else p)
  else
    o ++ [(k, v)]

/-- The JS object spread `\x7b...base, ...extra\x7d`: start from `base` and
assign every property of `extra` in order. -/
def spreadObj (base : Obj) (extra : Obj) : Obj :=
  extra.foldl (fun acc p => setField acc p.1 p.2) base

/-- Own enumerable properties seen by the JS spread operator when the spread
operand is not a plain object (strings and arrays spread their indexed
elements, primitives spread nothing). -/
def jsEnumerate : Json → Obj
  | .obj o => o
  | .str s => s.data.enum.map (fun p => (toString p.1, Json.str (String.mk [p.2])))
  | .arr xs => xs.enum.map (fun p => (toString p.1, p.2))
  | _ => []

def strLower (s : String) : String := ⟨s.data.map Char.toLower⟩

/-- Substring test on character lists (pattern, then text). -/
def hasSubChars (pat : List Char) : List Char → Bool
  | [] => pat.isEmpty
  | c :: rest => pat.isPrefixOf (c :: rest) || hasSubChars pat rest

/-- `s.includes pat` on strings (JS `String.prototype.includes`). -/
def hasSub (s pat : String) : Bool := hasSubChars pat.data s.data

/-- `s.toLowerCase().endsWith pat`. -/
def lowerEndsWith (s pat : String) : Bool := pat.data.isSuffixOf (strLower s).data

/-- ASCII core of the JS `\s` character class. -/
def isWsChar (c : Char) : Bool :=
  c = ' ' || c = '\t' || c = '\n' || c = '\r' || c = '\x0b' || c = '\x0c'

def trimChars (cs : List Char) : List Char :=
  ((cs.dropWhile isWsChar).reverse.dropWhile isWsChar).reverse

def jsTrim (s : String) : String := ⟨trimChars s.data⟩

def digitsToNat (ds : List Char) : Nat :=
  ds.foldl (fun acc c => acc * 10 + (c.toNat - '0'.toNat)) 0

/-- Model of the JS `Number(string)` coercion, restricted to optionally
signed decimal integer literals (the only numeric strings the store's id
handling meets); all other non-empty non-numeric strings give NaN,
modelled as `none`.  An all-whitespace string coerces to 0 as in JS. -/
def parseJsNumber (s : String) : Option Int :=
  match trimChars s.data with
  | [] => some 0
  | '+' :: ds => if ds ≠ [] ∧ ds.all Char.isDigit then some (digitsToNat ds) else none
  | '-' :: ds => if ds ≠ [] ∧ ds.all Char.isDigit then some (-(digitsToNat ds : Int)) else none
  | ds => if ds.all Char.isDigit then some (digitsToNat ds) else none

/-- JS `String(x)`, fuel-structural so that it is kernel-evaluable; the array
case is the comma join with null/undefined rendered empty, as in JS. -/
def jsToStringF : Nat → Json → String
  | _, .null => "null"
  | _, .undef => "undefined"
  | _, .bool b => if b then "true" else "false"
  | _, .num n => toString n
  | _, .str s => s
  | _, .obj _ => "[object Object]"
  | fuel + 1, .arr xs =>
      String.intercalate ","
        (xs.map (fun x =>
          match x with
          | .null => ""
          | .undef => ""
          | y => jsToStringF fuel y))
  | 0, .arr _ => ""

def jsToString (j : Json) : String := jsToStringF (jsize j) j

/-- JS `Number(x)`; `none` is NaN. Arrays coerce through their string join. -/
def jsToNumber : Json → Option Int
  | .num n => some n
  | .bool b => some (if b then 1 else 0)
  | .null => some 0
  | .undef => none
  | .str s => parseJsNumber s
  | .arr xs => parseJsNumber (jsToString (.arr xs))
  | .obj _ => none

/-- The `string | number` ids travelling through the store's API. -/
inductive SId where
  | str : String → SId
  | num : Int → SId
deriving DecidableEq, Repr

/-- JS `String(id)` on a `string or number` id. -/
def SId.render : SId → String
  | .str s => s
  | .num n => toString n

/-- `coerceId` from data-store.ts: `Number(id)` unless that is NaN. -/
def coerceId : SId → Json
  | .num n => .num n
  | .str s =>
      match parseJsNumber s with
      | some n => .num n
      | none => .str s

/-- `findIdField` from data-store.ts: prefer a property literally named
`id`; otherwise the first property whose lower-cased name equals `id` or
ends with `id`. -/
def findIdField (item : Obj) : Option String :=
  if item.any (fun p => p.1 = "id") then some "id"
  else (item.find? (fun p => strLower p.1 = "id" || lowerEndsWith p.1 "id")).map (·.1)

/-- `findIdField` lifted to arbitrary stored values. A non-object record
has no id field (JS would throw a TypeError on `'id' in primitive`; the
store never produces such records from object templates). -/
def jsFindIdField : Json → Option String
  | .obj o => findIdField o
  | _ => none

/-- JS property read `j[k]` (undefined when absent or not an object). -/
def jsGetField (j : Json) (k : String) : Json :=
  match j with
  | .obj o => (getField o k).getD .undef
  | _ => Json.undef

/-- `matchesId` from data-store.ts: stringified id-field comparison. -/
def matchesId (item : Json) (id : SId) : Bool :=
  match jsFindIdField item with
  | none => false
  | some f => jsToString (jsGetField item f) = id.render

/-- Model of the faker library: an indexed oracle of draws.  Every numeric
draw is only guaranteed to land in the requested range (the `int_ge` /
`int_le` contract); string draws are arbitrary.  The index threads through
the generator so successive calls are independent draws. -/
structure Faker where
  int : Nat → Int → Int → Int
  float : Nat → Int → Int → Int
  toss : Nat → Bool
  word : Nat → String
  words2 : Nat → String
  sentence : Nat → String
  email : Nat → String
  webUrl : Nat → String
  imageUrl : Nat → String
  companyName : Nat → String
  departmentName : Nat → String
  productName : Nat → String
  int_ge : ∀ i lo hi, lo ≤ hi → lo ≤ int i lo hi
  int_le : ∀ i lo hi, lo ≤ hi → int i lo hi ≤ hi

/-- A concrete faker (always the smallest draw), for evaluating witnesses. -/
def faker0 : Faker where
  int := fun _ lo _ => lo
  float := fun _ lo _ => lo
  toss := fun _ => false
  word := fun _ => "word"
  words2 := fun _ => "two words"
  sentence := fun _ => "a sentence."
  email := fun _ => "a@b.c"
  webUrl := fun _ => "https://x.example"
  imageUrl := fun _ => "https://img.example"
  companyName := fun _ => "Acme"
  departmentName := fun _ => "Games"
  productName := fun _ => "Chair"
  int_ge := fun _ _ _ _ => le_refl _
  int_le := fun _ _ _ h => h

/-- `generateFakeDataForField` from data-generator.ts, parameterised by the
recursive generator used for nested objects/arrays. -/
def generateFieldWith (recur : Json → Nat → Json × Nat) (F : Faker)
    (key : String) (value : Json) (c : Nat) : Json × Nat :=
  let lk := strLower key
  match value with
  | .obj o => recur (.obj o) c
  | .arr xs => recur (.arr xs) c
  | .str _ =>
    if hasSub lk "id" && !hasSub lk "title" then (.num (F.int c 1 1000), c + 1)
    else if hasSub lk "name" || hasSub lk "title" then
      if hasSub lk "company" || hasSub lk "store" then (.str (F.companyName c), c + 1)
      else if hasSub lk "category" then (.str (F.departmentName c), c + 1)
      else if hasSub lk "product" then (.str (F.productName c), c + 1)
      else (.str (F.words2 c), c + 1)
    else if hasSub lk "email" then (.str (F.email c), c + 1)
    else if hasSub lk "url" || hasSub lk "link" then (.str (F.webUrl c), c + 1)
    else if hasSub lk "image" || hasSub lk "img" || hasSub lk "avatar" then (.str (F.imageUrl c), c + 1)
    else if hasSub lk "description" || hasSub lk "desc" then (.str (F.sentence c), c + 1)
    else if lk = "en" || lk = "english" then (.str (F.words2 c), c + 1)
    else if lk = "ar" || lk = "arabic" then (.str "عربي", c)
    else (.str (F.word c), c + 1)
  | .num _ =>
    if hasSub lk "count" || hasSub lk "total" || hasSub lk "quantity" then (.num (F.int c 0 100), c + 1)
    else if hasSub lk "price" || hasSub lk "cost" || hasSub lk "amount" then (.num (F.float c 0 1000), c + 1)
    else if hasSub lk "priority" || hasSub lk "order" then (.num (F.int c 1 10), c + 1)
    else if hasSub lk "id" then (.num (F.int c 1 1000), c + 1)
    else (.num (F.int c 1 100), c + 1)
  | .bool _ =>
    if hasSub lk "error" || hasSub lk "failed" then (.bool false, c)
    else (.bool (F.toss c), c + 1)
  | other => (other, c)

/-- Generate `n` values from a generator, threading the draw index. -/
def genSeq (gen : Nat → Json × Nat) : Nat → Nat → List Json × Nat
  | 0, c => ([], c)
  | n + 1, c =>
    let r := gen c
    let rest := genSeq gen n r.2
    (r.1 :: rest.1, rest.2)

/-- Generate all fields of an object template, threading the draw index. -/
def genFieldsSeq (gen : String → Json → Nat → Json × Nat) :
    List (String × Json) → Nat → List (String × Json) × Nat
  | [], c => ([], c)
  | p :: rest, c =>
    let r := gen p.1 p.2 c
    let rs := genFieldsSeq gen rest r.2
    ((p.1, r.1) :: rs.1, rs.2)

/-- `generateFakeData` from data-generator.ts, fuel-structural (the fuel is
always at least the template size, so the fuel-exhausted arms are dead;
they return the template unchanged). Arrays with a non-empty template draw
2-3 copies of the first element; objects regenerate every field by the
field-name heuristics; primitives become a fresh primitive of the template
type. -/
def genDataF (F : Faker) : Nat → Json → Nat → Json × Nat
  | _, .null, c => (.null, c)
  | _, .undef, c => (.undef, c)
  | _, .arr [], c => (.arr [], c)
  | fuel + 1, .arr (t :: _), c =>
    let n := (F.int c 2 3).toNat
    let r := genSeq (genDataF F fuel t) n (c + 1)
    (.arr r.1, r.2)
  | fuel + 1, .obj kvs, c =>
    let r := genFieldsSeq (generateFieldWith (genDataF F fuel) F) kvs c
    (.obj r.1, r.2)
  | _, .str _, c => (.str (F.word c), c + 1)
  | _, .num _, c => (.num (F.int c 1 100), c + 1)
  | _, .bool _, c => (.bool (F.toss c), c + 1)
  | 0, .arr l, c => (.arr l, c)
  | 0, .obj kvs, c => (.obj kvs, c)

def generateFakeData (F : Faker) (template : Json) (c : Nat) : Json × Nat :=
  genDataF F (jsize template) template c

/-- A collection of the in-memory data store (data-store.ts): the mutable
record list, the template used to generate further records, and — when the
endpoint response wrapped its array — the wrapper shell and the name of the
wrapped array property. -/
structure Collection where
  items : List Json
  template : Json
  wrapper : Option (Obj × String)

/-- The store's `Map<string, Collection>`, insertion-ordered. -/
abbrev Store := List (String × Collection)

def mapGet (store : Store) (key : String) : Option Collection :=
  (store.find? (fun p => p.1 = key)).map (·.2)

def mapSet (store : Store) (key : String) (col : Collection) : Store :=
  if store.any (fun p => p.1 = key) then
    store.map (fun p => if p.1 = key then (key, col) else p)
  else
    store ++ [(key, col)]

def hasCollection (store : Store) (key : String) : Bool :=
  (mapGet store key).isSome

/-- One segment test of `extractCollectionKey`: `seg.startsWith c` for a
single character. -/
def headIs (s : String) (c : Char) : Bool :=
  match s.data with
  | [] => false
  | d :: _ => d = c

def splitOnChar (sep : Char) : List Char → List (List Char)
  | [] => [[]]
  | c :: rest =>
    let r := splitOnChar sep rest
    if c = sep then [] :: r
    else
      match r with
      | [] => [[c]]
      | g :: gs => (c :: g) :: gs

/-- `extractCollectionKey` from data-store.ts: strip one leading slash,
split on `/`, and return the last segment that is not a `:param` or
`\x7bparam\x7d` placeholder; if every segment is a placeholder, return the
path unchanged. -/
def extractCollectionKey (path : String) : String :=
  let stripped : List Char :=
    match path.data with
    | '/' :: rest => rest
    | cs => cs
  let segments := (splitOnChar '/' stripped).map (fun cs => String.mk cs)
  match segments.reverse.find? (fun seg => !(headIs seg ':') && !(headIs seg '{')) with
  | some seg => seg
  | none => path

def isNonEmptyArr : Json → Bool
  | .arr (_ :: _) => true
  | _ => false

/-- The scan inside `findArrayInResponse`: the first property of an object
whose value is a non-empty array, together with that array's first
element. -/
def findFirstArrayProp : List (String × Json) → Option (String × Json)
  | [] => none
  | (k, .arr (x :: _)) :: _ => some (k, x)
  | _ :: rest => findFirstArrayProp rest

/-- `findArrayInResponse` from data-store.ts: a top-level non-empty array
gives its first element with no wrapper; otherwise an object's first
non-empty-array property gives that array's first element plus a wrapper
holding the remaining properties (the shell) and the property name. -/
def findArrayInResponse : Json → Option (Json × Option (Obj × String))
  | .arr (x :: _) => some (x, none)
  | .obj kvs =>
      (findFirstArrayProp kvs).map
        (fun p => (p.2, some (kvs.filter (fun q => !(q.1 = p.1 : Bool)), p.1)))
  | _ => none

/-- Sequential-id overwrite applied to each seeded record:
`item[idField] = i + 1` with `idField = findIdField(item) ?? 'id'`.
`findIdField` begins with `'id' in item`, and the `in` operator throws a
TypeError when the record is not an object — a primitive, `null` or
`undefined` generated record aborts seeding (`none`).  On an array record
the `in` test is false, no index key matches, and the fallback assignment
`item['id'] = i + 1` sets an expando property that this `Json` type cannot
carry; that case lies outside the embedding's domain and is conservatively
also sent to `none` (no theorem below quantifies over it). -/
def setSeqId (g : Json) (v : Nat) : Option Json :=
  match g with
  | .obj o => some (.obj (setField o ((findIdField o).getD "id") (.num v)))
  | _ => none

/-- The `Array.from` seeding loop of `initFromSchema`: `n` records from the
template, the record at 0-based index `i` getting id `i + 1`; a TypeError
from the id assignment aborts the whole loop. -/
def seedItems (F : Faker) (tmpl : Json) : Nat → Nat → Nat → Option (List Json × Nat)
  | 0, _, c => some ([], c)
  | n + 1, i, c =>
    let r := generateFakeData F tmpl c
    match setSeqId r.1 (i + 1) with
    | none => none
    | some item =>
      match seedItems F tmpl n (i + 1) r.2 with
      | none => none
      | some rest => some (item :: rest.1, rest.2)

/-- HTTP methods of the endpoint schema. -/
inductive Method where
  | GET | POST | PUT | DELETE | PATCH
deriving DecidableEq, Repr

/-- One parsed endpoint (schema-types.ts `MockEndpoint`). -/
structure MockEndpoint where
  method : Method
  path : String
  request : Option Json
  response : Json
  status : Option Nat

/-- The body of the `initFromSchema` loop for one endpoint: GET endpoints
whose collection key is still unseeded and whose response contains an
array get 15-30 generated records; a TypeError thrown while seeding
propagates out (`none`). -/
def initStep (F : Faker) (acc : Store × Nat) (ep : MockEndpoint) : Option (Store × Nat) :=
  if ep.method ≠ Method.GET then some acc
  else
    let key := extractCollectionKey ep.path
    if (mapGet acc.1 key).isSome then some acc
    else
      match findArrayInResponse ep.response with
      | none => some acc
      | some info =>
        let cnt := (F.int acc.2 15 30).toNat
        match seedItems F info.1 cnt 0 (acc.2 + 1) with
        | none => none
        | some seeded => some (mapSet acc.1 key ⟨seeded.1, info.1, info.2⟩, seeded.2)

/-- `initFromSchema` from data-store.ts: the endpoint loop; an exception
aborts it (the CLI then exits without starting the server, so no
collection or wrapper is recorded). -/
def initFromSchema (F : Faker) : List MockEndpoint → Store × Nat → Option (Store × Nat)
  | [], acc => some acc
  | ep :: rest, acc =>
    match initStep F acc ep with
    | none => none
    | some acc2 => initFromSchema F rest acc2

/-- `getCollection` from data-store.ts: wrapped collections are returned as
the shell with the current record array re-inserted under the recorded
property name; unwrapped ones as the bare array. -/
def getCollection (store : Store) (key : String) : Option Json :=
  (mapGet store key).map fun col =>
    match col.wrapper with
    | some w => .obj (setField w.1 w.2 (.arr col.items))
    | none => .arr col.items

/-- `getItem` from data-store.ts. -/
def getItem (store : Store) (key : String) (id : SId) : Option Json :=
  match mapGet store key with
  | none => none
  | some col => col.items.find? (fun it => matchesId it id)

/-- The reducer inside `addItem` computing the running maximum of the
numeric id values (`Math.max(max, isNaN(v) ? 0 : v)` seeded with 0). -/
def maxNumericId (items : List Json) : Int :=
  items.foldl
    (fun mx it =>
      let v : Int :=
        match jsFindIdField it with
        | none => 0
        | some f => (jsToNumber (jsGetField it f)).getD 0
      max mx v)
    0

/-- `addItem` from data-store.ts.  On a missing collection, lazily create
it with the single record `\x7bid: 1, ...body\x7d` and the body itself as
template; otherwise generate a fresh record from the stored template,
overlay the body, set the id field to max + 1 and append.  Returns the new
record, the new store and the next draw index. -/
def addItem (F : Faker) (store : Store) (key : String) (body : Obj) (c : Nat) :
    Obj × Store × Nat :=
  match mapGet store key with
  | none =>
    let newItem := spreadObj [("id", .num 1)] body
    (newItem, mapSet store key ⟨[.obj newItem], .obj body, none⟩, c)
  | some col =>
    let maxId := maxNumericId col.items
    let r := generateFakeData F col.template c
    let merged := spreadObj (jsEnumerate r.1) body
    let idField := (findIdField merged).getD "id"
    let newItem := setField merged idField (.num (maxId + 1))
    (newItem, mapSet store key ⟨col.items ++ [.obj newItem], col.template, col.wrapper⟩, r.2)

/-- The merge applied by `updateItem` to the located record: spread the
updates over it, then force the id field (of the merged record) back to
the numeric-if-possible form of the id argument. -/
def mergeForUpdate (old : Json) (updates : Obj) (id : SId) : Json :=
  let merged := spreadObj (jsEnumerate old) updates
  let idField := (findIdField merged).getD "id"
  .obj (setField merged idField (coerceId id))

/-- `findIndex` plus in-place replacement of `updateItem`, rendered as a
first-match rewrite. -/
def updateFirst (id : SId) (updates : Obj) : List Json → Option (Json × List Json)
  | [] => none
  | item :: rest =>
    if matchesId item id then
      let newItem := mergeForUpdate item updates id
      some (newItem, newItem :: rest)
    else
      match updateFirst id updates rest with
      | none => none
      | some r => some (r.1, item :: r.2)

/-- `updateItem` from data-store.ts. -/
def updateItem (store : Store) (key : String) (id : SId) (updates : Obj) :
    Option Json × Store :=
  match mapGet store key with
  | none => (none, store)
  | some col =>
    match updateFirst id updates col.items with
    | none => (none, store)
    | some r => (some r.1, mapSet store key ⟨r.2, col.template, col.wrapper⟩)

/-- `findIndex` plus `splice` of `deleteItem`: remove the first match. -/
def removeFirst (id : SId) : List Json → Option (List Json)
  | [] => none
  | item :: rest =>
    if matchesId item id then some rest
    else (removeFirst id rest).map (fun r => item :: r)

/-- `deleteItem` from data-store.ts. -/
def deleteItem (store : Store) (key : String) (id : SId) : Bool × Store :=
  match mapGet store key with
  | none => (false, store)
  | some col =>
    match removeFirst id col.items with
    | none => (false, store)
    | some items => (true, mapSet store key ⟨items, col.template, col.wrapper⟩)

/-- The global replace of mock-server.ts `convertPathParams`: each
`\x7bname\x7d` occurrence (name non-empty, no closing brace inside)
becomes `:name`; everything else is copied. -/
def convChars : List Char → List Char
  | [] => []
  | c :: rest =>
    if c = '{' then
      let name := rest.takeWhile (fun d => d ≠ '}')
      match hrem : rest.dropWhile (fun d => d ≠ '}') with
      | '}' :: after =>
        if name.isEmpty then '{' :: convChars rest
        else ':' :: (name ++ convChars after)
      | _ => '{' :: convChars rest
  else c :: convChars rest
termination_by cs => cs.length
decreasing_by
  all_goals simp only [List.length_cons]
  all_goals try omega
  all_goals
    have hle : (rest.dropWhile (fun d => decide (d ≠ '}'))).length ≤ rest.length :=
      (List.dropWhile_sublist _).length_le
  all_goals rw [hrem] at hle
  all_goals simp at hle
  all_goals omega

def convertPathParams (path : String) : String := ⟨convChars path.data⟩

/-- The global replace used by the `/health` handler to rebuild example
URLs: each `:name` run (up to the next slash) returns to `\x7bname\x7d`
form. -/
def backToBraces : List Char → List Char
  | [] => []
  | c :: rest =>
    if c = ':' then
      let name := rest.takeWhile (fun d => d ≠ '/')
      if name.isEmpty then ':' :: backToBraces rest
      else '{' :: (name ++ '}' :: backToBraces (rest.dropWhile (fun d => d ≠ '/')))
    else c :: backToBraces rest
termination_by cs => cs.length
decreasing_by
  all_goals simp only [List.length_cons]
  all_goals try omega
  all_goals
    have hle : (rest.dropWhile (fun d => decide (d ≠ '/'))).length ≤ rest.length :=
      (List.dropWhile_sublist _).length_le
  all_goals omega

def healthExamplePath (expressPath : String) : String := ⟨backToBraces expressPath.data⟩

/-- Response of the `PUT /_config/delay` handler: HTTP status, JSON body,
and the runtime delay after the request. -/
structure DelayResponse where
  status : Nat
  body : Json
  delayAfter : Int

/-- The `PUT /_config/delay` handler of mock-server.ts: destructure `delay`
from the request body; reject non-numbers and negatives with HTTP 400
leaving the delay unchanged; otherwise store and echo the new delay. -/
def putConfigDelay (current : Int) (reqBody : Json) : DelayResponse :=
  match jsGetField reqBody "delay" with
  | .num n =>
    if n < 0 then
      ⟨400, .obj [("error", .str "delay must be a non-negative number (ms)")], current⟩
    else ⟨200, .obj [("delay", .num n)], n⟩
  | _ => ⟨400, .obj [("error", .str "delay must be a non-negative number (ms)")], current⟩

/-- Case-insensitive literal match: strip `pat` (compared lower-cased) from
the front of the text, returning the remainder. -/
def stripCITok : List Char → List Char → Option (List Char)
  | [], cs => some cs
  | _ :: _, [] => none
  | p :: ps, c :: cs => if p.toLower = c.toLower then stripCITok ps cs else none

/-- The method alternation `(GET|POST|PUT|DELETE)` of Strategy B's
`methodPathRegex`, tried in regex order at one position. -/
def tryMethodTok (cs : List Char) : Option (Method × List Char) :=
  match stripCITok "GET".data cs with
  | some rest => some (Method.GET, rest)
  | none =>
    match stripCITok "POST".data cs with
    | some rest => some (Method.POST, rest)
    | none =>
      match stripCITok "PUT".data cs with
      | some rest => some (Method.PUT, rest)
      | none =>
        match stripCITok "DELETE".data cs with
        | some rest => some (Method.DELETE, rest)
        | none => none

/-- Attempt of `^(GET|POST|PUT|DELETE)\s+(\/[^\s\n]*)` at one line start:
a method token, at least one whitespace character, then a path starting
with `/` extending to the next whitespace. -/
def tryAt (cs : List Char) : Option (Method × List Char) :=
  match tryMethodTok cs with
  | none => none
  | some mr =>
    let ws := mr.2.takeWhile isWsChar
    let rem := mr.2.dropWhile isWsChar
    if ws.isEmpty then none
    else
      match rem with
      | [] => none
      | d :: tail =>
        if d = '/' then some (mr.1, '/' :: tail.takeWhile (fun c => !(isWsChar c)))
        else none

/-- The multiline search of `methodPathRegex`: try the anchored pattern at
every line start, in order. -/
def scanMP (cs : List Char) : Option (Method × List Char) :=
  match tryAt cs with
  | some r => some r
  | none =>
    match hrem : cs.dropWhile (fun c => c ≠ '\n') with
    | [] => none
    | _ :: after => scanMP after
termination_by cs.length
decreasing_by
  have hle : (cs.dropWhile (fun c => decide (c ≠ '\n'))).length ≤ cs.length :=
    (List.dropWhile_sublist _).length_le
  rw [hrem] at hle
  simp at hle
  omega

/-- Regex-style scan: try a case-insensitive literal marker at every
position; where it matches, the continuation must also match, else the
scan resumes one character further. -/
def scanForCI (pat : List Char) (k : List Char → Option α) : List Char → Option α
  | [] => none
  | c :: rest =>
    match stripCITok pat (c :: rest) with
    | some after =>
      match k after with
      | some r => some r
      | none => scanForCI pat k rest
    | none => scanForCI pat k rest

/-- The `\s*\n\s*(\{[\s\S]*?\})` tail of Strategy B's request/response
regexes: a whitespace run containing a newline, an opening brace, then the
lazily matched text up to the first closing brace. -/
def jsonBracesAt (cs : List Char) : Option String :=
  let ws := cs.takeWhile isWsChar
  let rem := cs.dropWhile isWsChar
  if ws.contains '\n' then
    match rem with
    | '{' :: tail =>
      if tail.contains '}' then
        some ⟨'{' :: (tail.takeWhile (fun c => c ≠ '}') ++ ['}'])⟩
      else none
    | _ => none
  else none

/-- Strategy B request extraction (`Request:` marker); a JSON parse failure
leaves the request absent, exactly like the failed-match case. `jp` is the
external `JSON.parse` modelled as an oracle. -/
def extractRequest (jp : String → Option Json) (text : String) : Option Json :=
  match scanForCI "Request:".data jsonBracesAt text.data with
  | none => none
  | some s => jp s

/-- Strategy B response extraction (`Response:` marker); missing or
unparsable responses default to the empty object. -/
def extractResponse (jp : String → Option Json) (text : String) : Json :=
  match scanForCI "Response:".data jsonBracesAt text.data with
  | none => .obj []
  | some s => (jp s).getD (.obj [])

/-- The `\s*(\d{3})` tail of the `Status:` regex. -/
def threeDigitsAt (cs : List Char) : Option Nat :=
  match cs.dropWhile isWsChar with
  | a :: b :: c :: _ =>
    if a.isDigit && b.isDigit && c.isDigit then some (digitsToNat [a, b, c]) else none
  | _ => none

/-- Strategy B status extraction (`Status:` marker followed by exactly
three digits). -/
def extractStatus (text : String) : Option Nat :=
  scanForCI "Status:".data threeDigitsAt text.data

/-- `parseEndpointFromText` from erd-parser.ts (Strategy B): a block yields
an endpoint precisely when the method/path regex matches; request,
response and status are extracted from the same block text. -/
def parseEndpointFromText (jp : String → Option Json) (text : String) : Option MockEndpoint :=
  match scanMP text.data with
  | none => none
  | some mp =>
    some ⟨mp.1, ⟨mp.2⟩, extractRequest jp text, extractResponse jp text, extractStatus text⟩

/-- The URL-row transformation of `parseEndpointFromTable`: drop the query
string, then prefix a slash when the value starts with `api/`, or when it
neither starts with `/` nor lacks an `api/` substring. -/
def urlFromValue (value : String) : String :=
  let url : List Char := (splitOnChar '?' value.data).headD []
  if "api/".data.isPrefixOf url then ⟨'/' :: url⟩
  else if !("/".data.isPrefixOf url) && hasSubChars "api/".data url then ⟨'/' :: url⟩
  else ⟨url⟩

/-- The method alternation `(GET|POST|PUT|DELETE|PATCH)` of the table
strategy, tried at one position. -/
def tryVerbAt (cs : List Char) : Option Method :=
  match stripCITok "GET".data cs with
  | some _ => some Method.GET
  | none =>
    match stripCITok "POST".data cs with
    | some _ => some Method.POST
    | none =>
      match stripCITok "PUT".data cs with
      | some _ => some Method.PUT
      | none =>
        match stripCITok "DELETE".data cs with
        | some _ => some Method.DELETE
        | none =>
          match stripCITok "PATCH".data cs with
          | some _ => some Method.PATCH
          | none => none

/-- Unanchored, case-insensitive search for an HTTP verb inside a table
value (no word boundary, as in the source). -/
def findVerbIn : List Char → Option Method
  | [] => none
  | c :: rest =>
    match tryVerbAt (c :: rest) with
    | some m => some m
    | none => findVerbIn rest

/-- The accumulating endpoint of the table-row scan. -/
structure PartialEndpoint where
  path : Option String
  method : Option Method

/-- The per-row body of `parseEndpointFromTable`: a header containing
`url`/`endpoint` sets the path from the value; a header containing
`method` sets the method from the first verb found in the value. -/
def tableRowStep (ep : PartialEndpoint) (label value : String) : PartialEndpoint :=
  let lbl := strLower (jsTrim label)
  let ep1 :=
    if hasSub lbl "url" || hasSub lbl "endpoint" then
      { ep with path := some (urlFromValue value) }
    else ep
  if hasSub lbl "method" then
    match findVerbIn value.data with
    | some m => { ep1 with method := some m }
    | none => ep1
  else ep1

/-- `parseEndpointFromTable` over its extracted (header, value) rows: an
endpoint is produced only when both a method and a path were found. -/
def parseEndpointFromTable (rows : List (String × String)) : Option (Method × String) :=
  let ep := rows.foldl (fun acc r => tableRowStep acc r.1 r.2) ⟨none, none⟩
  match ep.method, ep.path with
  | some m, some p => some (m, p)
  | _, _ => none

/-- C7 spec side, from the claim's words: the value with everything from
the first `?` removed, prefixed with a leading slash exactly when the
remaining value starts with `api/`, or when it does not start with `/` but
contains the substring `api/`; otherwise unchanged. -/
def specUrlOfValue (value : String) : String :=
  let remaining : List Char := value.data.takeWhile (fun c => c ≠ '?')
  if "api/".data <+: remaining ∨
      (¬("/".data <+: remaining) ∧ "api/".data <:+: remaining) then
    ⟨'/' :: remaining⟩
  else ⟨remaining⟩

/-- A documented path segment: a literal piece or a `\x7bname\x7d`
placeholder. -/
inductive Seg where
  | lit : List Char → Seg
  | param : List Char → Seg

/-- Well-formed segment: non-empty, and free of the metacharacters `:`,
braces and `/` that the two rewrites key on. -/
def segOkB : Seg → Bool
  | .lit s => !s.isEmpty && s.all (fun c => c ≠ ':' && c ≠ '{' && c ≠ '}' && c ≠ '/')
  | .param n => !n.isEmpty && n.all (fun c => c ≠ ':' && c ≠ '{' && c ≠ '}' && c ≠ '/')

/-- Documented (brace) rendering of a segment. -/
def renderSeg : Seg → List Char
  | .lit s => s
  | .param n => '{' :: (n ++ ['}'])

/-- A slash-delimited documented path. -/
def renderPath : List Seg → List Char
  | [] => []
  | s :: rest => '/' :: (renderSeg s ++ renderPath rest)

/-- Express (named-parameter) rendering of a segment. -/
def renderExpressSeg : Seg → List Char
  | .lit s => s
  | .param n => ':' :: n

def renderExpress : List Seg → List Char
  | [] => []
  | s :: rest => '/' :: (renderExpressSeg s ++ renderExpress rest)

def c5demoOld : Obj := [("id", Json.num 7), ("name", Json.str "a")]

def c5demoUpd : Obj := [("name", Json.str "changed")]

def c5demoStore : Store := [("users", ⟨[Json.obj c5demoOld], Json.obj [], none⟩)]

/-- Per-record numeric id contribution used by the claim's description of
the maximum (non-numeric or absent identifiers contributing 0). -/
def idContribution (it : Json) : Int :=
  match jsFindIdField it with
  | none => 0
  | some f => (jsToNumber (jsGetField it f)).getD 0

/-- C4 as claimed: the new identifier is one plus the maximum contribution
over the existing records. -/
def claimNewId (items : List Json) : Option Int :=
  ((items.map idContribution).max?).map (fun m => m + 1)

def c4demoStore : Store :=
  [("users", ⟨[Json.obj [("id", Json.num (-5))]], Json.obj [("id", Json.num 0)], none⟩)]

def c4demoStore2 : Store :=
  [("widgets", ⟨[Json.obj [("id", Json.num 3), ("name", Json.str "a")]],
    Json.obj [("id", Json.num 0), ("name", Json.str "x")], none⟩)]

def c9demoBody : Obj := [("title", Json.str "first")]

def c9demoBody2 : Obj := [("title", Json.str "second")]

/-- Primitive (string, number, boolean) test used by the shape relation. -/
def isPrimB : Json → Bool
  | .num _ => true
  | .str _ => true
  | .bool _ => true
  | _ => false

/-- C3 spec side: the structure-preservation relation between a template
and a generated value, as claimed — null/undefined unchanged, primitives
to primitives, object key lists preserved with values related pointwise,
empty array templates to the empty array, non-empty array templates to
arrays of 2 or 3 elements each shaped like the template's first element. -/
inductive ShapeOk : Json → Json → Prop where
  | null : ShapeOk .null .null
  | undef : ShapeOk .undef .undef
  | prim : ∀ {t g}, isPrimB t = true → isPrimB g = true → ShapeOk t g
  | arrNil : ShapeOk (.arr []) (.arr [])
  | arrCons : ∀ {t ts gs}, (gs.length = 2 ∨ gs.length = 3) →
      (∀ g ∈ gs, ShapeOk t g) → ShapeOk (.arr (t :: ts)) (.arr gs)
  | obj : ∀ {kvs gvs}, keysOf gvs = keysOf kvs →
      List.Forall₂ (fun p q => ShapeOk p.2 q.2) kvs gvs → ShapeOk (.obj kvs) (.obj gvs)

def c1demoEp : MockEndpoint :=
  ⟨Method.GET, "/api/users", none,
    Json.obj [("errors", Json.bool false),
      ("data", Json.arr [Json.obj [("id", Json.num 0)]])], none⟩

def c1demoCol2 : Collection :=
  ⟨[Json.obj [("id", Json.num 5)]], Json.obj [("id", Json.num 0)],
    some ([("errors", Json.bool false)], "data")⟩

/-- A GET endpoint whose object response holds a non-empty array of
primitive numbers. -/
def c1crashEp : MockEndpoint :=
  ⟨Method.GET, "/api/codes", none,
    Json.obj [("errors", Json.bool false), ("data", Json.arr [Json.num 1])], none⟩

/-- C6 spec side: a case-insensitive method token of Strategy B's regex
alternation. -/
def IsMethodTok (tok : List Char) : Prop :=
  tok.map Char.toLower = ['g', 'e', 't'] ∨
  tok.map Char.toLower = ['p', 'o', 's', 't'] ∨
  tok.map Char.toLower = ['p', 'u', 't'] ∨
  tok.map Char.toLower = ['d', 'e', 'l', 'e', 't', 'e']

/-- C6 spec side: some line of the block starts with one of GET, POST,
PUT, DELETE (case-insensitive) followed by at least one whitespace
character and a path beginning with `/`. -/
def MethodLineMatch (cs : List Char) : Prop :=
  ∃ pre tok ws tail,
    cs = pre ++ (tok ++ (ws ++ '/' :: tail)) ∧
    (pre = [] ∨ ∃ q, pre = q ++ ['\n']) ∧
    IsMethodTok tok ∧
    ws ≠ [] ∧ (∀ c ∈ ws, isWsChar c = true)

theorem hasSubChars_iff (pat l : List Char) : hasSubChars pat l = true ↔ pat <:+: l := by
  induction l with
  | nil =>
    simp [hasSubChars, List.isEmpty_iff]
  | cons c rest ih =>
    simp [hasSubChars, List.infix_cons_iff, ih, List.isPrefixOf_iff_prefix]

theorem splitOnChar_head (sep : Char) (cs : List Char) :
    (splitOnChar sep cs).headD [] = cs.takeWhile (fun c => c ≠ sep) := by
  induction cs with
  | nil => simp [splitOnChar]
  | cons c rest ih =>
    simp only [splitOnChar, List.takeWhile]
    by_cases h : c = sep
    · simp [h]
    · have hne : (splitOnChar sep rest) ≠ [] := by
        cases hr : splitOnChar sep rest with
        | nil =>
          cases rest with
          | nil => simp [splitOnChar] at hr
          | cons d ds =>
            simp only [splitOnChar] at hr
            by_cases hd : d = sep
            · simp [hd] at hr
            · simp [hd] at hr
              rcases hx : splitOnChar sep ds with _ | _ <;> simp [hx] at hr
        | cons g gs => simp [hr]
      cases hr : splitOnChar sep rest with
      | nil => exact absurd hr hne
      | cons g gs =>
        simp [h, hr]
        have := ih
        rw [hr] at this
        simpa using this

theorem urlFromValue_eq_spec (value : String) : urlFromValue value = specUrlOfValue value := by
  unfold urlFromValue specUrlOfValue
  rw [splitOnChar_head]
  set rem := value.data.takeWhile (fun c => c ≠ '?') with hrem
  by_cases h1 : "api/".data <+: rem
  · simp [List.isPrefixOf_iff_prefix, h1]
  · by_cases h2 : "/".data <+: rem
    · simp [List.isPrefixOf_iff_prefix, h1, h2]
    · by_cases h3 : "api/".data <:+: rem
      · simp [List.isPrefixOf_iff_prefix, ← hasSubChars_iff] at h1 h2 h3 ⊢
        simp [h1, h2, h3]
      · simp [List.isPrefixOf_iff_prefix, ← hasSubChars_iff] at h1 h2 h3 ⊢
        simp [h1, h2, h3]

/-- C7: for every table row whose header label contains `url` or
`endpoint` (case-insensitively), the path derived by the table strategy is
the row value with everything from the first `?` removed, prefixed with a
leading `/` exactly when the remainder starts with `api/` or when it does
not start with `/` but contains `api/`; otherwise the remainder
unchanged. -/
theorem c7_table_url_row (ep : PartialEndpoint) (label value : String)
    (h : hasSub (strLower (jsTrim label)) "url" = true ∨
        hasSub (strLower (jsTrim label)) "endpoint" = true) :
    (tableRowStep ep label value).path = some (specUrlOfValue value) := by
  unfold tableRowStep
  rcases h with h | h <;>
    · simp only [h, Bool.true_or, Bool.or_true, if_true]
      rw [← urlFromValue_eq_spec]
      by_cases hm : hasSub (strLower (jsTrim label)) "method" = true <;>
        simp [hm] <;>
        cases findVerbIn value.data <;> simp

/-- C7 witness: a concrete URL row. -/
theorem c7_table_url_row_witness :
    (hasSub (strLower (jsTrim "URL")) "url" = true ∨
      hasSub (strLower (jsTrim "URL")) "endpoint" = true) ∧
    (tableRowStep ⟨none, none⟩ "URL" "api/widgets?page=2").path =
      some (specUrlOfValue "api/widgets?page=2") :=
  ⟨Or.inl (by decide),
   c7_table_url_row ⟨none, none⟩ "URL" "api/widgets?page=2" (Or.inl (by decide))⟩

/-- C8: the `PUT /_config/delay` handler answers HTTP 400 with an error
body and leaves the runtime delay unchanged exactly when the request
body's `delay` field is not a non-negative number, and otherwise installs
the new delay and echoes it back. -/
theorem c8_delay_update (current : Int) (body : Json) :
    (∀ n : Int, jsGetField body "delay" = Json.num n → 0 ≤ n →
      putConfigDelay current body = ⟨200, Json.obj [("delay", Json.num n)], n⟩) ∧
    ((∀ n : Int, jsGetField body "delay" = Json.num n → 0 ≤ n → False) →
      putConfigDelay current body =
        ⟨400, Json.obj [("error", Json.str "delay must be a non-negative number (ms)")],
          current⟩) := by
  constructor
  · intro n hn hge
    simp [putConfigDelay, hn]
    omega
  · intro hbad
    unfold putConfigDelay
    cases hv : jsGetField body "delay" with
    | num n =>
      have : n < 0 := by
        by_contra hcon
        exact hbad n hv (by omega)
      simp [this]
    | null => simp
    | undef => simp
    | bool b => simp
    | str s => simp
    | arr xs => simp
    | obj o => simp

/-- C8 witness: a valid update is installed and echoed; an invalid one is
rejected with 400 and the delay is kept. -/
theorem c8_delay_update_witness :
    putConfigDelay 7 (Json.obj [("delay", Json.num 250)]) =
      ⟨200, Json.obj [("delay", Json.num 250)], 250⟩ ∧
    putConfigDelay 9 (Json.obj [("delay", Json.str "soon")]) =
      ⟨400, Json.obj [("error", Json.str "delay must be a non-negative number (ms)")], 9⟩ :=
  ⟨(c8_delay_update 7 _).1 250 (by simp [jsGetField, getField]) (by decide),
   (c8_delay_update 9 _).2 (fun n hn _ => by simp [jsGetField, getField] at hn)⟩

theorem takeWhile_append_stop {p : Char → Bool} (xs ys : List Char) (y : Char)
    (hxs : ∀ c ∈ xs, p c = true) (hy : p y = false) :
    (xs ++ y :: ys).takeWhile p = xs := by
  induction xs with
  | nil => simp [List.takeWhile, hy]
  | cons a as ih =>
    have ha := hxs a (by simp)
    simp only [List.cons_append, List.takeWhile, ha]
    exact congrArg (fun t => a :: t) (ih (fun c hc => hxs c (by simp [hc])))

theorem dropWhile_append_stop {p : Char → Bool} (xs ys : List Char) (y : Char)
    (hxs : ∀ c ∈ xs, p c = true) (hy : p y = false) :
    (xs ++ y :: ys).dropWhile p = y :: ys := by
  induction xs with
  | nil => simp [List.dropWhile, hy]
  | cons a as ih =>
    have ha := hxs a (by simp)
    simp only [List.cons_append, List.dropWhile, ha]
    exact ih (fun c hc => hxs c (by simp [hc]))

theorem convChars_cons_ne (c : Char) (xs : List Char) (h : ¬c = '{') :
    convChars (c :: xs) = c :: convChars xs := by
  rw [convChars]
  simp [h]

theorem convChars_pass (xs ys : List Char) (hxs : ∀ c ∈ xs, ¬c = '{') :
    convChars (xs ++ ys) = xs ++ convChars ys := by
  induction xs with
  | nil => simp
  | cons a as ih =>
    rw [List.cons_append, convChars_cons_ne a _ (hxs a (by simp))]
    rw [ih (fun c hc => hxs c (by simp [hc]))]
    simp

theorem convChars_placeholder (name rest : List Char) (hne : name ≠ [])
    (hname : ∀ c ∈ name, ¬c = '}') :
    convChars ('{' :: (name ++ '}' :: rest)) = ':' :: (name ++ convChars rest) := by
  rw [convChars]
  simp only [if_pos rfl]
  rw [takeWhile_append_stop name rest '}' (fun c hc => by simp [hname c hc]) (by simp)]
  rw [dropWhile_append_stop name rest '}' (fun c hc => by simp [hname c hc]) (by simp)]
  simp [List.isEmpty_iff, hne]

theorem backToBraces_cons_ne (c : Char) (xs : List Char) (h : ¬c = ':') :
    backToBraces (c :: xs) = c :: backToBraces xs := by
  rw [backToBraces]
  simp [h]

theorem backToBraces_pass (xs ys : List Char) (hxs : ∀ c ∈ xs, ¬c = ':') :
    backToBraces (xs ++ ys) = xs ++ backToBraces ys := by
  induction xs with
  | nil => simp
  | cons a as ih =>
    rw [List.cons_append, backToBraces_cons_ne a _ (hxs a (by simp))]
    rw [ih (fun c hc => hxs c (by simp [hc]))]
    simp

theorem backToBraces_param (name m : List Char) (hne : name ≠ [])
    (hname : ∀ c ∈ name, ¬c = '/')
    (hm : m = [] ∨ ∃ m2, m = '/' :: m2) :
    backToBraces (':' :: (name ++ m)) = '{' :: (name ++ '}' :: backToBraces m) := by
  rw [backToBraces]
  simp only [if_pos rfl]
  have htake : (name ++ m).takeWhile (fun d => decide (d ≠ '/')) = name := by
    rcases hm with hm | ⟨m2, hm⟩
    · subst hm
      simp only [List.append_nil]
      rw [List.takeWhile_eq_self_iff.mpr]
      intro c hc
      simp [hname c hc]
    · subst hm
      exact takeWhile_append_stop name m2 '/' (fun c hc => by simp [hname c hc]) (by simp)
  have hdrop : (name ++ m).dropWhile (fun d => decide (d ≠ '/')) = m := by
    rcases hm with hm | ⟨m2, hm⟩
    · subst hm
      simp only [List.append_nil]
      rw [List.dropWhile_eq_nil_iff.mpr]
      intro c hc
      simp [hname c hc]
    · subst hm
      exact dropWhile_append_stop name m2 '/' (fun c hc => by simp [hname c hc]) (by simp)
  rw [htake, hdrop]
  simp [List.isEmpty_iff, hne]

theorem renderExpress_shape (segs : List Seg) :
    renderExpress segs = [] ∨ ∃ m, renderExpress segs = '/' :: m := by
  cases segs with
  | nil => exact Or.inl rfl
  | cons s rest => exact Or.inr ⟨_, rfl⟩

theorem segOkB_parts {cs : List Char} (hne : (!cs.isEmpty) = true)
    (hall : cs.all (fun c => c ≠ ':' && c ≠ '{' && c ≠ '}' && c ≠ '/') = true) :
    cs ≠ [] ∧ ∀ c ∈ cs, ¬c = ':' ∧ ¬c = '{' ∧ ¬c = '}' ∧ ¬c = '/' := by
  constructor
  · simpa [List.isEmpty_iff] using hne
  · intro c hc
    have := List.all_eq_true.mp hall c hc
    simp at this
    tauto

theorem convChars_renderPath (segs : List Seg) (hok : ∀ s ∈ segs, segOkB s = true) :
    convChars (renderPath segs) = renderExpress segs := by
  induction segs with
  | nil => simp [renderPath, renderExpress, convChars]
  | cons s rest ih =>
    have hs := hok s (by simp)
    have hrest : ∀ t ∈ rest, segOkB t = true := fun t ht => hok t (by simp [ht])
    cases s with
    | lit l =>
      simp only [segOkB, Bool.and_eq_true] at hs
      obtain ⟨hne, hall⟩ := segOkB_parts hs.1 hs.2
      simp only [renderPath, renderExpress, renderSeg, renderExpressSeg]
      have hpass : convChars (('/' :: l) ++ renderPath rest)
          = ('/' :: l) ++ convChars (renderPath rest) := by
        apply convChars_pass
        intro c hc
        rcases List.mem_cons.mp hc with h | h
        · simp [h]
        · exact (hall c h).2.1
      simp only [List.cons_append] at hpass
      rw [hpass, ih hrest]
    | param n =>
      simp only [segOkB, Bool.and_eq_true] at hs
      obtain ⟨hne, hall⟩ := segOkB_parts hs.1 hs.2
      simp only [renderPath, renderExpress, renderSeg, renderExpressSeg]
      rw [convChars_cons_ne '/' _ (by simp)]
      simp only [List.cons_append, List.append_assoc, List.singleton_append, List.nil_append]
      rw [convChars_placeholder n (renderPath rest) hne (fun c hc => (hall c hc).2.2.1),
        ih hrest]

theorem backToBraces_renderExpress (segs : List Seg) (hok : ∀ s ∈ segs, segOkB s = true) :
    backToBraces (renderExpress segs) = renderPath segs := by
  induction segs with
  | nil => simp [renderPath, renderExpress, backToBraces]
  | cons s rest ih =>
    have hs := hok s (by simp)
    have hrest : ∀ t ∈ rest, segOkB t = true := fun t ht => hok t (by simp [ht])
    cases s with
    | lit l =>
      simp only [segOkB, Bool.and_eq_true] at hs
      obtain ⟨hne, hall⟩ := segOkB_parts hs.1 hs.2
      simp only [renderPath, renderExpress, renderSeg, renderExpressSeg]
      have hpass : backToBraces (('/' :: l) ++ renderExpress rest)
          = ('/' :: l) ++ backToBraces (renderExpress rest) := by
        apply backToBraces_pass
        intro c hc
        rcases List.mem_cons.mp hc with h | h
        · simp [h]
        · exact (hall c h).1
      simp only [List.cons_append] at hpass
      rw [hpass, ih hrest]
    | param n =>
      simp only [segOkB, Bool.and_eq_true] at hs
      obtain ⟨hne, hall⟩ := segOkB_parts hs.1 hs.2
      simp only [renderPath, renderExpress, renderSeg, renderExpressSeg]
      rw [backToBraces_cons_ne '/' _ (by simp)]
      simp only [List.cons_append]
      rw [backToBraces_param n (renderExpress rest) hne (fun c hc => (hall c hc).2.2.2)
          (renderExpress_shape rest),
        ih hrest]
      simp

/-- C2: rewriting a documented path's `\x7bname\x7d` placeholders to
`:name` express parameters (`convertPathParams`) and then rewriting every
`:param` run back to brace form (the `/health` example-URL rewrite)
reproduces the original path, placeholder names in brace form included. -/
theorem c2_path_roundtrip (segs : List Seg)
    (hok : ∀ s ∈ segs, segOkB s = true)
    (hparam : ∃ s ∈ segs, ∃ n, s = Seg.param n) :
    healthExamplePath (convertPathParams ⟨renderPath segs⟩) = ⟨renderPath segs⟩ := by
  unfold healthExamplePath convertPathParams
  simp only
  rw [convChars_renderPath segs hok, backToBraces_renderExpress segs hok]

/-- C2 witness: the round trip on `/api/users/\x7bid\x7d/posts/\x7bpostId\x7d`. -/
theorem c2_path_roundtrip_witness :
    (∀ s ∈ [Seg.lit ['a', 'p', 'i'], Seg.lit ['u', 's', 'e', 'r', 's'],
        Seg.param ['i', 'd'], Seg.lit ['p', 'o', 's', 't', 's'],
        Seg.param ['p', 'o', 's', 't', 'I', 'd']], segOkB s = true) ∧
    healthExamplePath (convertPathParams
      ⟨renderPath [Seg.lit ['a', 'p', 'i'], Seg.lit ['u', 's', 'e', 'r', 's'],
        Seg.param ['i', 'd'], Seg.lit ['p', 'o', 's', 't', 's'],
        Seg.param ['p', 'o', 's', 't', 'I', 'd']]⟩) =
      ⟨renderPath [Seg.lit ['a', 'p', 'i'], Seg.lit ['u', 's', 'e', 'r', 's'],
        Seg.param ['i', 'd'], Seg.lit ['p', 'o', 's', 't', 's'],
        Seg.param ['p', 'o', 's', 't', 'I', 'd']]⟩ :=
  ⟨by decide,
   c2_path_roundtrip _ (by decide)
     ⟨Seg.param ['i', 'd'], by simp, ['i', 'd'], rfl⟩⟩

theorem find?_set_map_self (o : Obj) (k : String) (v : Json)
    (hany : o.any (fun p => p.1 = k) = true) :
    (o.map (fun p => if p.1 = k then (k, v) else p)).find? (fun p => p.1 = k)
      = some (k, v) := by
  induction o with
  | nil => simp at hany
  | cons p rest ih =>
    by_cases hp : p.1 = k
    · rw [List.map_cons, if_pos hp, List.find?_cons_of_pos _ (by simp)]
    · rw [List.map_cons, if_neg hp, List.find?_cons_of_neg _ (by simp [hp])]
      apply ih
      simpa [List.any_cons, hp] using hany

theorem find?_set_map_ne (o : Obj) (k q : String) (v : Json) (h : ¬q = k) :
    (o.map (fun p => if p.1 = k then (k, v) else p)).find? (fun p => p.1 = q)
      = o.find? (fun p => p.1 = q) := by
  induction o with
  | nil => rfl
  | cons p rest ih =>
    by_cases hp : p.1 = k
    · have hpq : ¬(p.1 = q) := by
        rw [hp]
        exact fun hh => h hh.symm
      rw [List.map_cons, if_pos hp,
        List.find?_cons_of_neg _ (by simp; exact fun hh => h hh.symm),
        List.find?_cons_of_neg _ (by simp [hpq]), ih]
    · by_cases hpq : p.1 = q
      · rw [List.map_cons, if_neg hp, List.find?_cons_of_pos _ (by simp [hpq]),
          List.find?_cons_of_pos _ (by simp [hpq])]
      · rw [List.map_cons, if_neg hp, List.find?_cons_of_neg _ (by simp [hpq]),
          List.find?_cons_of_neg _ (by simp [hpq]), ih]

theorem find?_key_none {α : Type} (l : List (String × α)) (k : String)
    (hany : ¬l.any (fun p => p.1 = k) = true) :
    l.find? (fun p => p.1 = k) = none := by
  rw [List.find?_eq_none]
  intro x hx
  rw [List.any_eq_true] at hany
  push_neg at hany
  exact hany x hx

theorem getField_setField_self (o : Obj) (k : String) (v : Json) :
    getField (setField o k v) k = some v := by
  unfold setField
  by_cases hany : o.any (fun p => p.1 = k) = true
  · rw [if_pos hany]
    rw [getField, find?_set_map_self o k v hany]
    rfl
  · rw [if_neg hany]
    rw [getField, List.find?_append, find?_key_none o k hany]
    rw [List.find?_cons_of_pos _ (by simp)]
    rfl

theorem getField_setField_ne (o : Obj) (k : String) (v : Json) (q : String) (h : ¬q = k) :
    getField (setField o k v) q = getField o q := by
  unfold setField
  by_cases hany : o.any (fun p => p.1 = k) = true
  · rw [if_pos hany]
    rw [getField, find?_set_map_ne o k q v h]
    rfl
  · rw [if_neg hany]
    rw [getField, List.find?_append]
    have h1 : List.find? (fun p => p.1 = q) [(k, v)] = none := by
      rw [List.find?_eq_none]
      intro x hx
      simp only [List.mem_singleton] at hx
      subst hx
      simp
      exact fun hh => h hh.symm
    rw [h1]
    simp [getField]

theorem getField_spreadObj_not_mem (base extra : Obj) (q : String)
    (h : q ∉ keysOf extra) :
    getField (spreadObj base extra) q = getField base q := by
  induction extra generalizing base with
  | nil => rfl
  | cons p rest ih =>
    simp only [keysOf, List.map_cons, List.mem_cons, not_or] at h
    have step : spreadObj base (p :: rest) = spreadObj (setField base p.1 p.2) rest := rfl
    rw [step, ih _ (by simpa [keysOf] using h.2),
      getField_setField_ne base p.1 p.2 q h.1]

theorem getField_spreadObj_mem (base extra : Obj) (k : String) (v : Json)
    (hnd : (keysOf extra).Nodup) (hmem : (k, v) ∈ extra) :
    getField (spreadObj base extra) k = some v := by
  induction extra generalizing base with
  | nil => simp at hmem
  | cons p rest ih =>
    simp only [keysOf, List.map_cons, List.nodup_cons] at hnd
    have step : spreadObj base (p :: rest) = spreadObj (setField base p.1 p.2) rest := rfl
    rw [step]
    rcases List.mem_cons.mp hmem with hh | hh
    · subst hh
      have hkn : k ∉ keysOf rest := by simpa [keysOf] using hnd.1
      rw [getField_spreadObj_not_mem _ _ _ hkn, getField_setField_self]
    · exact ih (setField base p.1 p.2) (by simpa [keysOf] using hnd.2) hh

theorem mapGet_mapSet_self (st : Store) (key : String) (col : Collection) :
    mapGet (mapSet st key col) key = some col := by
  unfold mapSet
  by_cases hany : st.any (fun p => p.1 = key) = true
  · rw [if_pos hany, mapGet]
    have : (st.map (fun p => if p.1 = key then (key, col) else p)).find?
        (fun p => p.1 = key) = some (key, col) := by
      induction st with
      | nil => simp at hany
      | cons p rest ih =>
        by_cases hp : p.1 = key
        · rw [List.map_cons, if_pos hp, List.find?_cons_of_pos _ (by simp)]
        · rw [List.map_cons, if_neg hp, List.find?_cons_of_neg _ (by simp [hp])]
          apply ih
          simpa [List.any_cons, hp] using hany
    rw [this]
    rfl
  · rw [if_neg hany, mapGet, List.find?_append, find?_key_none st key hany]
    rw [List.find?_cons_of_pos _ (by simp)]
    rfl

theorem mapGet_mapSet_ne (st : Store) (key : String) (col : Collection)
    (q : String) (h : ¬q = key) :
    mapGet (mapSet st key col) q = mapGet st q := by
  unfold mapSet
  by_cases hany : st.any (fun p => p.1 = key) = true
  · rw [if_pos hany, mapGet, mapGet]
    have : (st.map (fun p => if p.1 = key then (key, col) else p)).find?
        (fun p => p.1 = q) = st.find? (fun p => p.1 = q) := by
      clear hany
      induction st with
      | nil => rfl
      | cons p rest ih =>
        by_cases hp : p.1 = key
        · have hpq : ¬(p.1 = q) := by
            rw [hp]
            exact fun hh => h hh.symm
          rw [List.map_cons, if_pos hp,
            List.find?_cons_of_neg _ (by simp; exact fun hh => h hh.symm),
            List.find?_cons_of_neg _ (by simp [hpq]), ih]
        · by_cases hpq : p.1 = q
          · rw [List.map_cons, if_neg hp, List.find?_cons_of_pos _ (by simp [hpq]),
              List.find?_cons_of_pos _ (by simp [hpq])]
          · rw [List.map_cons, if_neg hp, List.find?_cons_of_neg _ (by simp [hpq]),
              List.find?_cons_of_neg _ (by simp [hpq]), ih]
    rw [this]
  · rw [if_neg hany, mapGet, mapGet, List.find?_append]
    have h1 : List.find? (fun p => p.1 = q) [(key, col)] = none := by
      rw [List.find?_eq_none]
      intro x hx
      simp only [List.mem_singleton] at hx
      subst hx
      simp
      exact fun hh => h hh.symm
    rw [h1]
    simp

theorem findIdField_none (o : Obj)
    (h : ∀ k ∈ keysOf o, ¬strLower k = "id" ∧ lowerEndsWith k "id" = false) :
    findIdField o = none := by
  unfold findIdField
  have hany : ¬o.any (fun p => p.1 = "id") = true := by
    rw [List.any_eq_true]
    push_neg
    intro p hp
    intro hpk
    simp only [decide_eq_true_eq] at hpk
    have hk := h p.1 (List.mem_map_of_mem (fun q => q.1) hp)
    rw [hpk] at hk
    exact hk.1 (by decide)
  rw [if_neg hany]
  have : o.find? (fun p => strLower p.1 = "id" || lowerEndsWith p.1 "id") = none := by
    rw [List.find?_eq_none]
    intro p hp
    have hk := h p.1 (List.mem_map_of_mem (fun q => q.1) hp)
    simp [hk.1, hk.2]
  rw [this]
  rfl

theorem matchesId_no_id (o : Obj) (id : SId)
    (h : ∀ k ∈ keysOf o, ¬strLower k = "id" ∧ lowerEndsWith k "id" = false) :
    matchesId (Json.obj o) id = false := by
  simp [matchesId, jsFindIdField, findIdField_none o h]

theorem updateFirst_none (id : SId) (updates : Obj) (items : List Json)
    (h : ∀ item ∈ items, matchesId item id = false) :
    updateFirst id updates items = none := by
  induction items with
  | nil => rfl
  | cons x rest ih =>
    simp only [updateFirst, h x (by simp), Bool.false_eq_true, if_false]
    rw [ih (fun t ht => h t (by simp [ht]))]

theorem removeFirst_none (id : SId) (items : List Json)
    (h : ∀ item ∈ items, matchesId item id = false) :
    removeFirst id items = none := by
  induction items with
  | nil => rfl
  | cons x rest ih =>
    simp only [removeFirst, h x (by simp), Bool.false_eq_true, if_false]
    rw [ih (fun t ht => h t (by simp [ht]))]
    rfl

/-- C10: for a collection none of whose records carries a property named
`id` (case-insensitively) or a property whose lower-cased name ends in
`id`, identifier lookups can never match: `getItem` and `updateItem`
return no value and `deleteItem` returns false for every id, the store
unchanged. -/
theorem c10_no_id_lookups (store : Store) (key : String) (col : Collection)
    (hcol : mapGet store key = some col)
    (hitems : ∀ item ∈ col.items, ∃ o, item = Json.obj o ∧
        ∀ k ∈ keysOf o, ¬strLower k = "id" ∧ lowerEndsWith k "id" = false) :
    ∀ (id : SId) (updates : Obj),
      getItem store key id = none ∧
      updateItem store key id updates = (none, store) ∧
      deleteItem store key id = (false, store) := by
  intro id updates
  have hm : ∀ item ∈ col.items, matchesId item id = false := by
    intro item hin
    obtain ⟨o, rfl, hno⟩ := hitems item hin
    exact matchesId_no_id o id hno
  refine ⟨?_, ?_, ?_⟩
  · simp only [getItem, hcol]
    rw [List.find?_eq_none]
    intro x hx
    simp [hm x hx]
  · simp only [updateItem, hcol, updateFirst_none id updates col.items hm]
  · simp only [deleteItem, hcol, removeFirst_none id col.items hm]

/-- C10 witness: a collection of records keyed only by `name`. -/
theorem c10_no_id_lookups_witness :
    mapGet [("users",
        (⟨[Json.obj [("name", Json.str "a")]], Json.obj [], none⟩ : Collection))] "users"
      = some ⟨[Json.obj [("name", Json.str "a")]], Json.obj [], none⟩ ∧
    getItem [("users",
        (⟨[Json.obj [("name", Json.str "a")]], Json.obj [], none⟩ : Collection))]
      "users" (SId.num 3) = none :=
  ⟨rfl,
   ((c10_no_id_lookups
      [("users", (⟨[Json.obj [("name", Json.str "a")]], Json.obj [], none⟩ : Collection))]
      "users" ⟨[Json.obj [("name", Json.str "a")]], Json.obj [], none⟩ rfl
      (fun item h => by
        simp only [List.mem_singleton] at h
        subst h
        exact ⟨[("name", Json.str "a")], rfl, by decide⟩))
     (SId.num 3) []).1⟩

theorem updateFirst_found (id : SId) (updates : Obj) (front back : List Json) (old : Json)
    (hfront : ∀ item ∈ front, matchesId item id = false)
    (hold : matchesId old id = true) :
    updateFirst id updates (front ++ old :: back) =
      some (mergeForUpdate old updates id,
        front ++ mergeForUpdate old updates id :: back) := by
  induction front with
  | nil => simp [updateFirst, hold]
  | cons x rest ih =>
    simp only [List.cons_append, updateFirst, hfront x (by simp), Bool.false_eq_true,
      if_false, List.append_eq]
    rw [ih (fun t ht => hfront t (by simp [ht]))]

/-- C5: `updateItem` replaces the located record by the shallow merge of
the updates over it, with the identifier field (of the merged record)
forced back to the numeric-if-possible form of the id argument; every
field outside the updates and the identifier is unchanged, updated fields
take the update's value, and the identifier field holds `coerceId id`
regardless of the updates. -/
theorem c5_update_preserves (store : Store) (key : String) (col : Collection)
    (front back : List Json) (oldo : Obj) (id : SId) (updates : Obj)
    (hcol : mapGet store key = some col)
    (hitems : col.items = front ++ Json.obj oldo :: back)
    (hfront : ∀ item ∈ front, matchesId item id = false)
    (hold : matchesId (Json.obj oldo) id = true)
    (hnd : (keysOf updates).Nodup) :
    let merged := spreadObj oldo updates
    let idF := (findIdField merged).getD "id"
    let res := setField merged idF (coerceId id)
    updateItem store key id updates =
      (some (Json.obj res),
        mapSet store key ⟨front ++ Json.obj res :: back, col.template, col.wrapper⟩) ∧
    getField res idF = some (coerceId id) ∧
    (∀ k v, (k, v) ∈ updates → ¬k = idF → getField res k = some v) ∧
    (∀ k, k ∉ keysOf updates → ¬k = idF → getField res k = getField oldo k) := by
  intro merged idF res
  have hmerge : mergeForUpdate (Json.obj oldo) updates id = Json.obj res := rfl
  refine ⟨?_, getField_setField_self _ _ _, ?_, ?_⟩
  · simp only [updateItem, hcol, hitems,
      updateFirst_found id updates front back _ hfront hold, hmerge]
  · intro k v hkv hk
    rw [getField_setField_ne _ _ _ _ hk]
    exact getField_spreadObj_mem _ _ _ _ hnd hkv
  · intro k hk hkid
    rw [getField_setField_ne _ _ _ _ hkid]
    exact getField_spreadObj_not_mem _ _ _ hk

/-- C5 witness: update record 7 with a new name only. -/
theorem c5_update_preserves_witness :
    matchesId (Json.obj c5demoOld) (SId.str "7") = true ∧
    getField
      (setField (spreadObj c5demoOld c5demoUpd)
        ((findIdField (spreadObj c5demoOld c5demoUpd)).getD "id") (coerceId (SId.str "7")))
      ((findIdField (spreadObj c5demoOld c5demoUpd)).getD "id")
      = some (coerceId (SId.str "7")) := by
  have hold : matchesId (Json.obj c5demoOld) (SId.str "7") = true := by
    simp [c5demoOld, matchesId, jsFindIdField, findIdField, jsGetField, getField,
      jsToString, jsToStringF, jsize, SId.render]
    decide
  exact ⟨hold,
    (c5_update_preserves c5demoStore "users" ⟨[Json.obj c5demoOld], Json.obj [], none⟩
      [] [] c5demoOld (SId.str "7") c5demoUpd rfl rfl
      (fun item h => absurd h (List.not_mem_nil _))
      hold (by decide)).2.1⟩

/-- Shared specification of `addItem` on an existing collection: the new
record is the fresh generation from the stored template with the body
overlaid, then the identifier field set to the reducer's maximum plus
one, and it is appended to the collection. -/
theorem addItem_existing_spec (F : Faker) (store : Store) (key : String)
    (col : Collection) (body : Obj) (c : Nat)
    (hcol : mapGet store key = some col)
    (hnd : (keysOf body).Nodup) :
    let gen := (generateFakeData F col.template c).1
    let merged := spreadObj (jsEnumerate gen) body
    let idF := (findIdField merged).getD "id"
    let res := setField merged idF (Json.num (maxNumericId col.items + 1))
    addItem F store key body c =
      (res, mapSet store key ⟨col.items ++ [Json.obj res], col.template, col.wrapper⟩,
        (generateFakeData F col.template c).2) ∧
    getField res idF = some (Json.num (maxNumericId col.items + 1)) ∧
    (∀ k v, (k, v) ∈ body → ¬k = idF → getField res k = some v) ∧
    (∀ k, k ∉ keysOf body → ¬k = idF → getField res k = getField (jsEnumerate gen) k) := by
  intro gen merged idF res
  refine ⟨?_, getField_setField_self _ _ _, ?_, ?_⟩
  · simp only [addItem, hcol]
  · intro k v hkv hk
    rw [getField_setField_ne _ _ _ _ hk]
    exact getField_spreadObj_mem _ _ _ _ hnd hkv
  · intro k hk hkid
    rw [getField_setField_ne _ _ _ _ hkid]
    exact getField_spreadObj_not_mem _ _ _ hk

theorem maxNumericId_eq_fold (items : List Json) :
    maxNumericId items = (items.map idContribution).foldl max 0 := by
  rw [maxNumericId, List.foldl_map]
  rfl

/-- C4 counterexample: a collection whose single record holds the numeric
identifier -5.  The claim's new id is `max contribution + 1 = -4`, but the
code's reducer is seeded with 0 (`Math.max` starting at 0), so the code
appends a record with id 1, not -4. -/
theorem c4_max_id_counterexample :
    claimNewId [Json.obj [("id", Json.num (-5))]] = some (-4) ∧
    getField (addItem faker0 c4demoStore "users" [] 0).1 "id" = some (Json.num 1) ∧
    ¬getField (addItem faker0 c4demoStore "users" [] 0).1 "id" = some (Json.num (-4)) := by
  have heval : (addItem faker0 c4demoStore "users" [] 0).1 = [("id", Json.num 1)] := by
    simp [addItem, c4demoStore, mapGet, maxNumericId, jsFindIdField, findIdField,
      jsGetField, getField, jsToNumber, generateFakeData, jsize, genDataF, genFieldsSeq,
      generateFieldWith, faker0, hasSub, hasSubChars, strLower, jsEnumerate, spreadObj,
      setField, keysOf]
  refine ⟨?_, ?_, ?_⟩
  · simp [claimNewId, idContribution, jsFindIdField, findIdField, jsGetField, getField,
      jsToNumber]
  · rw [heval]
    simp [getField]
  · rw [heval]
    simp [getField]

/-- C4 (amended): on an existing collection, `addItem` appends a record
built by overlaying the caller's body on a record freshly generated from
the stored template, whose identifier field is then set to one plus the
maximum of zero together with the numeric identifier values of the
existing records (non-numeric or absent identifiers contributing 0). -/
theorem c4_add_item_amended (F : Faker) (store : Store) (key : String)
    (col : Collection) (body : Obj) (c : Nat)
    (hcol : mapGet store key = some col)
    (hnd : (keysOf body).Nodup) :
    let gen := (generateFakeData F col.template c).1
    let merged := spreadObj (jsEnumerate gen) body
    let idF := (findIdField merged).getD "id"
    let newId : Int := (col.items.map idContribution).foldl max 0 + 1
    let res := setField merged idF (Json.num newId)
    addItem F store key body c =
      (res, mapSet store key ⟨col.items ++ [Json.obj res], col.template, col.wrapper⟩,
        (generateFakeData F col.template c).2) ∧
    getField res idF = some (Json.num newId) ∧
    (∀ k v, (k, v) ∈ body → ¬k = idF → getField res k = some v) ∧
    (∀ k, k ∉ keysOf body → ¬k = idF → getField res k = getField (jsEnumerate gen) k) := by
  rw [show ((col.items.map idContribution).foldl max 0 : Int) = maxNumericId col.items
    from (maxNumericId_eq_fold col.items).symm]
  exact addItem_existing_spec F store key col body c hcol hnd

/-- C4 witness (amended claim): adding `\x7bname: "new"\x7d` to a
collection whose records have maximum id 3. -/
theorem c4_add_item_amended_witness :
    mapGet c4demoStore2 "widgets"
      = some ⟨[Json.obj [("id", Json.num 3), ("name", Json.str "a")]],
          Json.obj [("id", Json.num 0), ("name", Json.str "x")], none⟩ ∧
    getField
      (setField
        (spreadObj
          (jsEnumerate (generateFakeData faker0
            (Json.obj [("id", Json.num 0), ("name", Json.str "x")]) 0).1)
          [("name", Json.str "new")])
        ((findIdField
          (spreadObj
            (jsEnumerate (generateFakeData faker0
              (Json.obj [("id", Json.num 0), ("name", Json.str "x")]) 0).1)
            [("name", Json.str "new")])).getD "id")
        (Json.num (([Json.obj [("id", Json.num 3), ("name", Json.str "a")]].map
          idContribution).foldl max 0 + 1)))
      ((findIdField
        (spreadObj
          (jsEnumerate (generateFakeData faker0
            (Json.obj [("id", Json.num 0), ("name", Json.str "x")]) 0).1)
          [("name", Json.str "new")])).getD "id")
      = some (Json.num (([Json.obj [("id", Json.num 3), ("name", Json.str "a")]].map
          idContribution).foldl max 0 + 1)) :=
  ⟨rfl,
   (c4_add_item_amended faker0 c4demoStore2 "widgets"
      ⟨[Json.obj [("id", Json.num 3), ("name", Json.str "a")]],
        Json.obj [("id", Json.num 0), ("name", Json.str "x")], none⟩
      [("name", Json.str "new")] 0 rfl (by decide)).2.1⟩

/-- C9: `addItem` on an unknown key lazily creates the collection, storing
the caller's body itself as the template and `\x7bid: 1, ...body\x7d` as
the single record; consequently a subsequent `addItem` on that key
generates its base record from that first request body. -/
theorem c9_lazy_template (F : Faker) (store : Store) (key : String)
    (body body2 : Obj) (c c2 : Nat)
    (hnone : mapGet store key = none) (hnd2 : (keysOf body2).Nodup) :
    let firstItem := spreadObj [("id", Json.num 1)] body
    let store1 := (addItem F store key body c).2.1
    (addItem F store key body c).1 = firstItem ∧
    mapGet store1 key = some ⟨[Json.obj firstItem], Json.obj body, none⟩ ∧
    (let gen := (generateFakeData F (Json.obj body) c2).1
     let merged := spreadObj (jsEnumerate gen) body2
     let idF := (findIdField merged).getD "id"
     (addItem F store1 key body2 c2).1 =
       setField merged idF (Json.num (maxNumericId [Json.obj firstItem] + 1))) := by
  intro firstItem store1
  have h1 : addItem F store key body c =
      (firstItem, mapSet store key ⟨[Json.obj firstItem], Json.obj body, none⟩, c) := by
    simp [addItem, hnone]
  have hget : mapGet store1 key = some ⟨[Json.obj firstItem], Json.obj body, none⟩ := by
    show mapGet (addItem F store key body c).2.1 key = _
    rw [h1]
    exact mapGet_mapSet_self _ _ _
  refine ⟨by rw [h1], hget, ?_⟩
  intro gen merged idF
  have hspec := (addItem_existing_spec F store1 key
    ⟨[Json.obj firstItem], Json.obj body, none⟩ body2 c2 hget hnd2).1
  rw [show (addItem F store1 key body2 c2).1
      = (addItem F store1 key body2 c2).1 from rfl]
  rw [hspec]

/-- C9 witness: first POST to an unseeded key, then the lazily created
collection's template is the first body. -/
theorem c9_lazy_template_witness :
    mapGet [] "things" = none ∧
    (addItem faker0 [] "things" c9demoBody 0).1 = spreadObj [("id", Json.num 1)] c9demoBody ∧
    mapGet (addItem faker0 [] "things" c9demoBody 0).2.1 "things"
      = some ⟨[Json.obj (spreadObj [("id", Json.num 1)] c9demoBody)],
          Json.obj c9demoBody, none⟩ := by
  have h := c9_lazy_template faker0 [] "things" c9demoBody c9demoBody2 0 1 rfl (by decide)
  exact ⟨rfl, h.1, h.2.1⟩

theorem jsize_arr_eq (xs : List Json) : jsize (.arr xs) = 1 + (xs.map jsize).sum := by
  rw [jsize]
  congr 1
  rw [List.attach_map_val xs jsize]

theorem jsize_obj_eq (kvs : List (String × Json)) :
    jsize (.obj kvs) = 1 + (kvs.map (fun p => jsize p.2)).sum := by
  rw [jsize]
  congr 1
  rw [List.attach_map_val kvs (fun p => jsize p.2)]

theorem jsize_pos (t : Json) : 1 ≤ jsize t := by
  cases t <;> simp [jsize]

theorem jsize_mem_arr {t : Json} {xs : List Json} (h : t ∈ xs) :
    jsize t < jsize (.arr xs) := by
  rw [jsize_arr_eq]
  have : jsize t ≤ (xs.map jsize).sum :=
    List.le_sum_of_mem (List.mem_map_of_mem jsize h)
  omega

theorem jsize_mem_obj {p : String × Json} {kvs : List (String × Json)} (h : p ∈ kvs) :
    jsize p.2 < jsize (.obj kvs) := by
  rw [jsize_obj_eq]
  have : jsize p.2 ≤ (kvs.map (fun q => jsize q.2)).sum :=
    List.le_sum_of_mem (List.mem_map_of_mem (fun q => jsize q.2) h)
  omega

theorem genSeq_length (g : Nat → Json × Nat) (n c : Nat) :
    (genSeq g n c).1.length = n := by
  induction n generalizing c with
  | zero => rfl
  | succ n ih => simp [genSeq, ih]

theorem genSeq_mem {P : Json → Prop} (g : Nat → Json × Nat)
    (hg : ∀ c, P (g c).1) (n c : Nat) :
    ∀ x ∈ (genSeq g n c).1, P x := by
  induction n generalizing c with
  | zero => simp [genSeq]
  | succ n ih =>
    intro x hx
    simp only [genSeq, List.mem_cons] at hx
    rcases hx with rfl | hx
    · exact hg c
    · exact ih _ x hx

theorem genFieldsSeq_keys (gen : String → Json → Nat → Json × Nat)
    (kvs : List (String × Json)) (c : Nat) :
    keysOf (genFieldsSeq gen kvs c).1 = keysOf kvs := by
  induction kvs generalizing c with
  | nil => rfl
  | cons p rest ih => simp [genFieldsSeq, keysOf] at ih ⊢; exact ih _

theorem genFieldsSeq_forall₂ (gen : String → Json → Nat → Json × Nat)
    (kvs : List (String × Json))
    (hg : ∀ p ∈ kvs, ∀ c, ShapeOk p.2 ((gen p.1 p.2 c).1)) (c : Nat) :
    List.Forall₂ (fun p q => ShapeOk p.2 q.2) kvs (genFieldsSeq gen kvs c).1 := by
  induction kvs generalizing c with
  | nil => exact List.Forall₂.nil
  | cons p rest ih =>
    exact List.Forall₂.cons (hg p (by simp) c)
      (ih (fun q hq => hg q (by simp [hq])) _)

theorem genDataF_shape (F : Faker) :
    ∀ fuel t c, jsize t ≤ fuel → ShapeOk t (genDataF F fuel t c).1 := by
  intro fuel
  induction fuel with
  | zero =>
    intro t c h
    have := jsize_pos t
    omega
  | succ fuel ih =>
    intro t c h
    cases t with
    | null => exact ShapeOk.null
    | undef => exact ShapeOk.undef
    | bool b => exact ShapeOk.prim rfl rfl
    | num n => exact ShapeOk.prim rfl rfl
    | str s => exact ShapeOk.prim rfl rfl
    | arr xs =>
      cases xs with
      | nil => exact ShapeOk.arrNil
      | cons t1 ts =>
        have hsz : jsize t1 ≤ fuel := by
          have := jsize_mem_arr (show t1 ∈ t1 :: ts by simp)
          omega
        have helem : ∀ c2, ShapeOk t1 ((genDataF F fuel t1 c2).1) :=
          fun c2 => ih t1 c2 hsz
        simp only [genDataF]
        have hge := F.int_ge c 2 3 (by norm_num)
        have hle := F.int_le c 2 3 (by norm_num)
        refine ShapeOk.arrCons ?_ ?_
        · rw [genSeq_length]
          omega
        · exact genSeq_mem _ helem _ _
    | obj kvs =>
      simp only [genDataF]
      refine ShapeOk.obj (genFieldsSeq_keys _ _ _) (genFieldsSeq_forall₂ _ _ ?_ _)
      intro p hp c2
      have hsz : jsize p.2 ≤ fuel := by
        have := jsize_mem_obj hp
        omega
      cases hv : p.2 with
      | obj o =>
        simp only [generateFieldWith]
        rw [← hv]
        exact ih p.2 c2 hsz
      | arr ys =>
        simp only [generateFieldWith]
        rw [← hv]
        exact ih p.2 c2 hsz
      | str s =>
        refine ShapeOk.prim rfl ?_
        simp only [generateFieldWith]
        repeat' split
        all_goals rfl
      | num n =>
        refine ShapeOk.prim rfl ?_
        simp only [generateFieldWith]
        repeat' split
        all_goals rfl
      | bool b =>
        refine ShapeOk.prim rfl ?_
        simp only [generateFieldWith]
        repeat' split
        all_goals rfl
      | null =>
        simp only [generateFieldWith]
        exact ShapeOk.null
      | undef =>
        simp only [generateFieldWith]
        exact ShapeOk.undef

/-- C3: `generateFakeData` is structure-preserving: an object template
yields an object with exactly the same key list; a non-empty array
template yields an array of 2 or 3 elements, each shaped like the
template's first element (empty exactly for empty template arrays);
null/undefined are returned unchanged; primitives stay primitive. -/
theorem c3_generate_shape (F : Faker) (template : Json) (c : Nat) :
    ShapeOk template (generateFakeData F template c).1 :=
  genDataF_shape F (jsize template) template c (le_refl _)

theorem findFirstArrayProp_decomp (a b : List (String × Json)) (k : String)
    (e : Json) (es : List Json)
    (ha : ∀ p ∈ a, isNonEmptyArr p.2 = false) :
    findFirstArrayProp (a ++ (k, Json.arr (e :: es)) :: b) = some (k, e) := by
  induction a with
  | nil => rfl
  | cons p rest ih =>
    have hp := ha p (by simp)
    have hrec := ih (fun q hq => ha q (by simp [hq]))
    obtain ⟨pk, pv⟩ := p
    cases pv with
    | null => simpa [findFirstArrayProp] using hrec
    | undef => simpa [findFirstArrayProp] using hrec
    | bool x => simpa [findFirstArrayProp] using hrec
    | num x => simpa [findFirstArrayProp] using hrec
    | str x => simpa [findFirstArrayProp] using hrec
    | obj o => simpa [findFirstArrayProp] using hrec
    | arr xs =>
      cases xs with
      | nil => simpa [findFirstArrayProp] using hrec
      | cons y ys => simp [isNonEmptyArr] at hp

theorem filter_out_key (a b : List (String × Json)) (k : String) (v : Json)
    (hka : k ∉ keysOf a) (hkb : k ∉ keysOf b) :
    (a ++ (k, v) :: b).filter (fun q => !(q.1 = k : Bool)) = a ++ b := by
  induction a with
  | nil =>
    have hb : List.filter (fun q => !(q.1 = k : Bool)) b = b := by
      apply List.filter_eq_self.mpr
      intro q hq
      have hqk : ¬q.1 = k := by
        intro hqk
        apply hkb
        rw [← hqk]
        exact List.mem_map_of_mem (fun r => r.1) hq
      simp [hqk]
    rw [List.nil_append, List.filter_cons, if_neg (by simp), hb, List.nil_append]
  | cons p rest ih =>
    simp only [keysOf, List.map_cons, List.mem_cons, not_or] at hka
    have hpk : ¬p.1 = k := fun hh => hka.1 hh.symm
    rw [List.cons_append, List.filter_cons]
    simp only [show (!(p.1 = k : Bool)) = true by simp [hpk], if_true]
    rw [ih (by simpa [keysOf] using hka.2)]
    rfl

theorem setField_append (o : Obj) (k : String) (v : Json) (h : k ∉ keysOf o) :
    setField o k v = o ++ [(k, v)] := by
  unfold setField
  rw [if_neg]
  intro hany
  rw [List.any_eq_true] at hany
  obtain ⟨p, hp, hpk⟩ := hany
  simp only [decide_eq_true_eq] at hpk
  exact h (by simpa [keysOf, hpk] using List.mem_map_of_mem (fun q => q.1) hp)

theorem genDataF_num (F : Faker) (fuel : Nat) (m : Int) (c : Nat) :
    genDataF F fuel (Json.num m) c = (Json.num (F.int c 1 100), c + 1) := by
  cases fuel <;> rfl

theorem genDataF_obj_out (F : Faker) (fuel : Nat) (ekvs : Obj) (c : Nat) :
    ∃ o c2, genDataF F fuel (Json.obj ekvs) c = (Json.obj o, c2) := by
  cases fuel with
  | zero => exact ⟨ekvs, c, rfl⟩
  | succ m =>
    exact ⟨(genFieldsSeq (generateFieldWith (genDataF F m) F) ekvs c).1,
      (genFieldsSeq (generateFieldWith (genDataF F m) F) ekvs c).2, rfl⟩

theorem seedItems_obj (F : Faker) (ekvs : Obj) :
    ∀ (n i c : Nat), ∃ items c2,
      seedItems F (Json.obj ekvs) n i c = some (items, c2) := by
  intro n
  induction n with
  | zero => intro i c; exact ⟨[], c, rfl⟩
  | succ m ih =>
    intro i c
    obtain ⟨o, c1, hgen⟩ := genDataF_obj_out F (jsize (Json.obj ekvs)) ekvs c
    have hgen2 : generateFakeData F (Json.obj ekvs) c = (Json.obj o, c1) := hgen
    obtain ⟨items, c2, hrest⟩ := ih (i + 1) c1
    refine ⟨Json.obj (setField o ((findIdField o).getD "id") (.num (i + 1))) :: items, c2, ?_⟩
    simp only [seedItems, hgen2, setSeqId, hrest]
    norm_cast

theorem initStep_seeds (F : Faker) (store : Store) (c : Nat) (ep : MockEndpoint)
    (kvs a b : List (String × Json)) (k : String) (ekvs : Obj) (es : List Json)
    (hmeth : ep.method = Method.GET)
    (hresp : ep.response = Json.obj kvs)
    (hkvs : kvs = a ++ (k, Json.arr (Json.obj ekvs :: es)) :: b)
    (ha : ∀ p ∈ a, isNonEmptyArr p.2 = false)
    (hka : k ∉ keysOf a) (hkb : k ∉ keysOf b)
    (hfresh : mapGet store (extractCollectionKey ep.path) = none) :
    ∃ items c2,
      seedItems F (Json.obj ekvs) (F.int c 15 30).toNat 0 (c + 1) = some (items, c2) ∧
      initStep F (store, c) ep =
        some (mapSet store (extractCollectionKey ep.path)
          ⟨items, Json.obj ekvs, some (a ++ b, k)⟩, c2) := by
  obtain ⟨items, c2, hseed⟩ := seedItems_obj F ekvs ((F.int c 15 30).toNat) 0 (c + 1)
  refine ⟨items, c2, hseed, ?_⟩
  have hfa : findArrayInResponse ep.response
      = some (Json.obj ekvs, some (a ++ b, k)) := by
    rw [hresp, hkvs]
    simp only [findArrayInResponse]
    rw [findFirstArrayProp_decomp a b k (Json.obj ekvs) es ha]
    simp only [Option.map_some, Option.map_some']
    rw [filter_out_key a b k (Json.arr (Json.obj ekvs :: es)) hka hkb]
  simp [initStep, hmeth, hfresh, hfa, hseed]

theorem initStep_preserves (F : Faker) (acc acc2 : Store × Nat) (ep : MockEndpoint)
    (key : String) (col : Collection)
    (hstep : initStep F acc ep = some acc2)
    (h : mapGet acc.1 key = some col) :
    mapGet acc2.1 key = some col := by
  by_cases h1 : ep.method ≠ Method.GET
  · simp only [initStep, if_pos h1, Option.some.injEq] at hstep
    rw [← hstep]
    exact h
  · by_cases h2 : (mapGet acc.1 (extractCollectionKey ep.path)).isSome
    · simp only [initStep, if_neg h1, if_pos h2, Option.some.injEq] at hstep
      rw [← hstep]
      exact h
    · cases hfa : findArrayInResponse ep.response with
      | none =>
        simp only [initStep, if_neg h1, if_neg h2, hfa, Option.some.injEq] at hstep
        rw [← hstep]
        exact h
      | some info =>
        have hne : ¬key = extractCollectionKey ep.path := by
          intro heq
          rw [← heq, h] at h2
          simp at h2
        simp only [initStep, if_neg h1, if_neg h2, hfa] at hstep
        cases hseed : seedItems F info.1 ((F.int acc.2 15 30).toNat) 0 (acc.2 + 1) with
        | none => rw [hseed] at hstep; cases hstep
        | some seeded =>
          rw [hseed] at hstep
          simp only [Option.some.injEq] at hstep
          rw [← hstep]
          simpa [mapGet_mapSet_ne _ _ _ _ hne] using h

theorem initFromSchema_preserves (F : Faker) (schema : List MockEndpoint) :
    ∀ (acc acc2 : Store × Nat) (key : String) (col : Collection),
      initFromSchema F schema acc = some acc2 →
      mapGet acc.1 key = some col →
      mapGet acc2.1 key = some col := by
  induction schema with
  | nil =>
    intro acc acc2 key col hrun h
    simp only [initFromSchema, Option.some.injEq] at hrun
    rw [← hrun]
    exact h
  | cons ep rest ih =>
    intro acc acc2 key col hrun h
    simp only [initFromSchema] at hrun
    cases hstep : initStep F acc ep with
    | none => rw [hstep] at hrun; cases hrun
    | some mid =>
      rw [hstep] at hrun
      exact ih mid acc2 key col hrun (initStep_preserves F acc mid ep key col hstep h)

theorem initFromSchema_append (F : Faker) (l1 l2 : List MockEndpoint) :
    ∀ acc, initFromSchema F (l1 ++ l2) acc =
      match initFromSchema F l1 acc with
      | none => none
      | some mid => initFromSchema F l2 mid := by
  induction l1 with
  | nil => intro acc; rfl
  | cons ep rest ih =>
    intro acc
    simp only [List.cons_append, initFromSchema]
    cases initStep F acc ep with
    | none => rfl
    | some mid => exact ih mid

theorem getCollection_wrapped (store : Store) (key : String) (col : Collection)
    (shell : Obj) (k : String)
    (hcol : mapGet store key = some col)
    (hwrap : col.wrapper = some (shell, k))
    (hk : k ∉ keysOf shell) :
    getCollection store key = some (Json.obj (shell ++ [(k, Json.arr col.items)])) := by
  unfold getCollection
  rw [hcol]
  simp only [Option.map_some, Option.map_some', hwrap]
  rw [setField_append _ _ _ hk]

/-- C1 (amended): a GET endpoint whose response template is an object whose
first non-empty-array property `k` holds an object as its first element
seeds (when its collection key is still fresh and seeding has survived the
earlier endpoints) a collection recording the wrapper — the object's other
properties verbatim as shell plus `k` — and every completed run of the
remaining schema preserves it; and on any store whose collection at that
key carries this wrapper, `getCollection` returns the shell object with
the current record array re-inserted under `k`, the other shell properties
preserved verbatim.  The object-element hypothesis is necessary: a
primitive first element makes the seeding loop throw. -/
theorem c1_wrapped_collection_amended (F : Faker) (pre post : List MockEndpoint)
    (ep : MockEndpoint) (store0 : Store) (c0 : Nat) (acc1 : Store × Nat)
    (kvs a b : List (String × Json)) (k : String) (ekvs : Obj) (es : List Json)
    (hmeth : ep.method = Method.GET)
    (hresp : ep.response = Json.obj kvs)
    (hkvs : kvs = a ++ (k, Json.arr (Json.obj ekvs :: es)) :: b)
    (ha : ∀ p ∈ a, isNonEmptyArr p.2 = false)
    (hka : k ∉ keysOf a) (hkb : k ∉ keysOf b)
    (hpre : initFromSchema F pre (store0, c0) = some acc1)
    (hfresh : mapGet acc1.1 (extractCollectionKey ep.path) = none) :
    (∃ mid items,
      initFromSchema F (pre ++ ep :: post) (store0, c0) = initFromSchema F post mid ∧
      mapGet mid.1 (extractCollectionKey ep.path) =
        some ⟨items, Json.obj ekvs, some (a ++ b, k)⟩ ∧
      (∀ fin, initFromSchema F post mid = some fin →
        mapGet fin.1 (extractCollectionKey ep.path) =
          some ⟨items, Json.obj ekvs, some (a ++ b, k)⟩)) ∧
    (∀ (store2 : Store) (col2 : Collection),
      mapGet store2 (extractCollectionKey ep.path) = some col2 →
      col2.wrapper = some (a ++ b, k) →
      getCollection store2 (extractCollectionKey ep.path) =
        some (Json.obj ((a ++ b) ++ [(k, Json.arr col2.items)]))) := by
  have hkab : k ∉ keysOf (a ++ b) := by
    simp only [keysOf, List.map_append, List.mem_append, not_or] at hka hkb ⊢
    exact ⟨hka, hkb⟩
  refine ⟨?_, fun store2 col2 hcol2 hwrap2 =>
    getCollection_wrapped store2 _ col2 (a ++ b) k hcol2 hwrap2 hkab⟩
  obtain ⟨items, c2, hseed, hstep⟩ :=
    initStep_seeds F acc1.1 acc1.2 ep kvs a b k ekvs es hmeth hresp hkvs ha hka hkb hfresh
  have hstep1 : initStep F acc1 ep =
      some (mapSet acc1.1 (extractCollectionKey ep.path)
        ⟨items, Json.obj ekvs, some (a ++ b, k)⟩, c2) := hstep
  refine ⟨(mapSet acc1.1 (extractCollectionKey ep.path)
      ⟨items, Json.obj ekvs, some (a ++ b, k)⟩, c2), items, ?_, mapGet_mapSet_self _ _ _, ?_⟩
  · rw [show pre ++ ep :: post = (pre ++ [ep]) ++ post from by simp]
    rw [initFromSchema_append F (pre ++ [ep]) post (store0, c0)]
    rw [initFromSchema_append F pre [ep] (store0, c0)]
    rw [hpre]
    simp only [initFromSchema, hstep1]
  · intro fin hfin
    exact initFromSchema_preserves F post _ fin _ _ hfin (mapGet_mapSet_self _ _ _)

/-- C1 counterexample to the unamended claim: for the GET endpoint with
response `\x7b"errors": false, "data": [1]\x7d` — an object with a non-empty
array-valued property — seeding generates a primitive record, `findIdField`
evaluates `'id' in 1` which throws a TypeError, and `initFromSchema`
crashes: no wrapper (and no collection) is ever recorded, where the claim
asserts one is. -/
theorem c1_seed_crash_counterexample :
    c1crashEp.method = Method.GET ∧
    (findArrayInResponse c1crashEp.response).isSome = true ∧
    initFromSchema faker0 [c1crashEp] ([], 0) = none := by
  refine ⟨rfl, rfl, ?_⟩
  have hgen : generateFakeData faker0 (Json.num 1) 1
      = (Json.num (faker0.int 1 1 100), 2) := by
    unfold generateFakeData
    exact genDataF_num _ _ _ _
  have hseed : seedItems faker0 (Json.num 1) 15 0 1 = none := by
    have hstepone : seedItems faker0 (Json.num 1) 15 0 1 =
        match setSeqId (generateFakeData faker0 (Json.num 1) 1).1 1 with
        | none => none
        | some item =>
          match seedItems faker0 (Json.num 1) 14 1
              (generateFakeData faker0 (Json.num 1) 1).2 with
          | none => none
          | some rest => some (item :: rest.1, rest.2) := rfl
    rw [hstepone, hgen]
    rfl
  have hstep : initStep faker0 ([], 0) c1crashEp = none := by
    simp only [initStep, c1crashEp]
    norm_num [mapGet, extractCollectionKey, findArrayInResponse, findFirstArrayProp]
    have h15 : (faker0.int 0 15 30).toNat = 15 := rfl
    rw [h15, hseed]
  simp only [initFromSchema, hstep]

/-- C1 witness (amended claim): the endpoint with response
`\x7berrors: false, data: [\x7bid: 0\x7d]\x7d` seeds the wrapper, and a
wrapped collection read re-inserts the current record array under `data`
with `errors: false` preserved. -/
theorem c1_wrapped_collection_amended_witness :
    (∃ mid items,
      initFromSchema faker0 [c1demoEp] ([], 0) = initFromSchema faker0 [] mid ∧
      mapGet mid.1 (extractCollectionKey c1demoEp.path) =
        some ⟨items, Json.obj [("id", Json.num 0)],
          some ([("errors", Json.bool false)], "data")⟩ ∧
      (∀ fin, initFromSchema faker0 [] mid = some fin →
        mapGet fin.1 (extractCollectionKey c1demoEp.path) =
          some ⟨items, Json.obj [("id", Json.num 0)],
            some ([("errors", Json.bool false)], "data")⟩)) ∧
    getCollection
        [(extractCollectionKey c1demoEp.path, c1demoCol2)]
        (extractCollectionKey c1demoEp.path) =
      some (Json.obj ([("errors", Json.bool false)] ++
        [("data", Json.arr [Json.obj [("id", Json.num 5)]])])) := by
  have h := c1_wrapped_collection_amended faker0 [] [] c1demoEp [] 0 ([], 0)
    [("errors", Json.bool false), ("data", Json.arr [Json.obj [("id", Json.num 0)]])]
    [("errors", Json.bool false)] [] "data" [("id", Json.num 0)] []
    rfl rfl rfl (by decide) (by decide) (by decide) rfl rfl
  refine ⟨?_, ?_⟩
  · simpa using h.1
  · exact h.2 [(extractCollectionKey c1demoEp.path, c1demoCol2)] c1demoCol2
      (by simp [mapGet]) rfl

theorem stripCITok_some (pat : List Char) :
    ∀ cs rest, stripCITok pat cs = some rest →
      ∃ tok, cs = tok ++ rest ∧ tok.map Char.toLower = pat.map Char.toLower := by
  induction pat with
  | nil =>
    intro cs rest h
    simp only [stripCITok, Option.some.injEq] at h
    exact ⟨[], by simp [h], rfl⟩
  | cons p ps ih =>
    intro cs rest h
    cases cs with
    | nil => simp [stripCITok] at h
    | cons c cs2 =>
      simp only [stripCITok] at h
      by_cases hc : p.toLower = c.toLower
      · rw [if_pos hc] at h
        obtain ⟨tok, h1, h2⟩ := ih cs2 rest h
        exact ⟨c :: tok, by simp [h1], by simp [h2, hc.symm]⟩
      · rw [if_neg hc] at h
        cases h

theorem stripCITok_append_of_lower (pat : List Char) :
    ∀ tok rest, tok.map Char.toLower = pat.map Char.toLower →
      stripCITok pat (tok ++ rest) = some rest := by
  induction pat with
  | nil =>
    intro tok rest h
    have : tok = [] := by simpa using h
    subst this
    rfl
  | cons p ps ih =>
    intro tok rest h
    cases tok with
    | nil => simp at h
    | cons c toks =>
      simp only [List.map_cons, List.cons.injEq] at h
      simp only [List.cons_append, stripCITok]
      rw [if_pos h.1.symm]
      exact ih toks rest h.2

theorem stripCITok_none_of_clash (pat cs : List Char)
    (h : ∀ tok rest, cs = tok ++ rest → ¬tok.map Char.toLower = pat.map Char.toLower) :
    stripCITok pat cs = none := by
  cases hs : stripCITok pat cs with
  | none => rfl
  | some r =>
    obtain ⟨tok, h1, h2⟩ := stripCITok_some pat cs r hs
    exact absurd h2 (h tok r h1)

theorem tryMethodTok_some (cs : List Char) (m : Method) (rest : List Char)
    (h : tryMethodTok cs = some (m, rest)) :
    ∃ tok, cs = tok ++ rest ∧ IsMethodTok tok := by
  unfold tryMethodTok at h
  cases h1 : stripCITok "GET".data cs with
  | some r =>
    rw [h1] at h
    simp only [Option.some.injEq, Prod.mk.injEq] at h
    obtain ⟨tok, ha, hb⟩ := stripCITok_some _ _ _ h1
    exact ⟨tok, h.2 ▸ ha, Or.inl (by rw [hb]; decide)⟩
  | none =>
    rw [h1] at h
    cases h2 : stripCITok "POST".data cs with
    | some r =>
      rw [h2] at h
      simp only [Option.some.injEq, Prod.mk.injEq] at h
      obtain ⟨tok, ha, hb⟩ := stripCITok_some _ _ _ h2
      exact ⟨tok, h.2 ▸ ha, Or.inr (Or.inl (by rw [hb]; decide))⟩
    | none =>
      rw [h2] at h
      cases h3 : stripCITok "PUT".data cs with
      | some r =>
        rw [h3] at h
        simp only [Option.some.injEq, Prod.mk.injEq] at h
        obtain ⟨tok, ha, hb⟩ := stripCITok_some _ _ _ h3
        exact ⟨tok, h.2 ▸ ha, Or.inr (Or.inr (Or.inl (by rw [hb]; decide)))⟩
      | none =>
        rw [h3] at h
        cases h4 : stripCITok "DELETE".data cs with
        | some r =>
          rw [h4] at h
          simp only [Option.some.injEq, Prod.mk.injEq] at h
          obtain ⟨tok, ha, hb⟩ := stripCITok_some _ _ _ h4
          exact ⟨tok, h.2 ▸ ha, Or.inr (Or.inr (Or.inr (by rw [hb]; decide)))⟩
        | none =>
          rw [h4] at h
          cases h

theorem maps_append_eq {tok rest tok2 rest2 : List Char}
    (heq : tok ++ rest = tok2 ++ rest2) :
    tok.map Char.toLower ++ rest.map Char.toLower
      = tok2.map Char.toLower ++ rest2.map Char.toLower := by
  rw [← List.map_append, ← List.map_append, heq]

theorem head_clash {x y : Char} {xs ys r1 r2 : List Char} (hxy : ¬x = y)
    (h : (x :: xs) ++ r1 = (y :: ys) ++ r2) : False := by
  simp only [List.cons_append, List.cons.injEq] at h
  exact hxy h.1

theorem second_clash {x b c : Char} {xs ys r1 r2 : List Char} (hbc : ¬b = c)
    (h : (x :: b :: xs) ++ r1 = (x :: c :: ys) ++ r2) : False := by
  simp only [List.cons_append, List.cons.injEq] at h
  exact hbc h.2.1

theorem tryMethodTok_of_tok (tok rest : List Char) (htok : IsMethodTok tok) :
    ∃ m, tryMethodTok (tok ++ rest) = some (m, rest) := by
  rcases htok with h | h | h | h
  · refine ⟨Method.GET, ?_⟩
    unfold tryMethodTok
    rw [stripCITok_append_of_lower _ _ _ (by rw [h]; decide)]
  · refine ⟨Method.POST, ?_⟩
    unfold tryMethodTok
    rw [stripCITok_none_of_clash _ _ (fun tok2 rest2 heq h2 => by
      rw [show List.map Char.toLower "GET".data = ['g', 'e', 't'] from by decide] at h2
      have hm := maps_append_eq heq
      rw [h, h2] at hm
      exact head_clash (by decide) hm)]
    rw [stripCITok_append_of_lower _ _ _ (by rw [h]; decide)]
  · refine ⟨Method.PUT, ?_⟩
    unfold tryMethodTok
    rw [stripCITok_none_of_clash _ _ (fun tok2 rest2 heq h2 => by
      rw [show List.map Char.toLower "GET".data = ['g', 'e', 't'] from by decide] at h2
      have hm := maps_append_eq heq
      rw [h, h2] at hm
      exact head_clash (by decide) hm)]
    rw [stripCITok_none_of_clash _ _ (fun tok2 rest2 heq h2 => by
      rw [show List.map Char.toLower "POST".data = ['p', 'o', 's', 't'] from by decide] at h2
      have hm := maps_append_eq heq
      rw [h, h2] at hm
      exact second_clash (by decide) hm)]
    rw [stripCITok_append_of_lower _ _ _ (by rw [h]; decide)]
  · refine ⟨Method.DELETE, ?_⟩
    unfold tryMethodTok
    rw [stripCITok_none_of_clash _ _ (fun tok2 rest2 heq h2 => by
      rw [show List.map Char.toLower "GET".data = ['g', 'e', 't'] from by decide] at h2
      have hm := maps_append_eq heq
      rw [h, h2] at hm
      exact head_clash (by decide) hm)]
    rw [stripCITok_none_of_clash _ _ (fun tok2 rest2 heq h2 => by
      rw [show List.map Char.toLower "POST".data = ['p', 'o', 's', 't'] from by decide] at h2
      have hm := maps_append_eq heq
      rw [h, h2] at hm
      exact head_clash (by decide) hm)]
    rw [stripCITok_none_of_clash _ _ (fun tok2 rest2 heq h2 => by
      rw [show List.map Char.toLower "PUT".data = ['p', 'u', 't'] from by decide] at h2
      have hm := maps_append_eq heq
      rw [h, h2] at hm
      exact head_clash (by decide) hm)]
    rw [stripCITok_append_of_lower _ _ _ (by rw [h]; decide)]

theorem tryAt_of_decomp (tok ws tail : List Char)
    (htok : IsMethodTok tok) (hws : ws ≠ []) (hwa : ∀ c ∈ ws, isWsChar c = true) :
    (tryAt (tok ++ (ws ++ '/' :: tail))).isSome = true := by
  obtain ⟨m, hm⟩ := tryMethodTok_of_tok tok (ws ++ '/' :: tail) htok
  unfold tryAt
  rw [hm]
  simp only
  rw [takeWhile_append_stop ws tail '/' hwa (by decide),
    dropWhile_append_stop ws tail '/' hwa (by decide)]
  simp [List.isEmpty_iff, hws]

theorem tryAt_some_decomp (cs : List Char) (h : (tryAt cs).isSome = true) :
    ∃ tok ws tail, cs = tok ++ (ws ++ '/' :: tail) ∧ IsMethodTok tok ∧
      ws ≠ [] ∧ ∀ c ∈ ws, isWsChar c = true := by
  unfold tryAt at h
  cases hmt : tryMethodTok cs with
  | none => rw [hmt] at h; simp at h
  | some mr =>
    rw [hmt] at h
    simp only at h
    obtain ⟨tok, htokeq, htok⟩ := tryMethodTok_some cs mr.1 mr.2 (by rw [hmt])
    by_cases hemp : (mr.2.takeWhile isWsChar).isEmpty
    · rw [if_pos hemp] at h
      simp at h
    · rw [if_neg hemp] at h
      cases hdrop : mr.2.dropWhile isWsChar with
      | nil => rw [hdrop] at h; simp at h
      | cons d tail2 =>
        rw [hdrop] at h
        by_cases hd : d = '/'
        · subst hd
          refine ⟨tok, mr.2.takeWhile isWsChar, tail2, ?_, htok, ?_, ?_⟩
          · rw [htokeq]
            congr 1
            rw [← hdrop, List.takeWhile_append_dropWhile]
          · simpa [List.isEmpty_iff] using hemp
          · intro c hc
            exact List.mem_takeWhile_imp hc
        · simp [hd] at h

theorem dropWhile_head_false {p : Char → Bool} {l r : List Char} {d : Char}
    (h : l.dropWhile p = d :: r) : p d = false := by
  induction l with
  | nil => simp [List.dropWhile] at h
  | cons c cl ih =>
    by_cases hc : p c
    · rw [List.dropWhile_cons_of_pos hc] at h
      exact ih h
    · rw [List.dropWhile_cons_of_neg hc] at h
      cases h
      simpa using hc

theorem scanMP_isSome_iff :
    ∀ (n : Nat) (cs : List Char), cs.length ≤ n →
      ((scanMP cs).isSome = true ↔ MethodLineMatch cs) := by
  intro n
  induction n with
  | zero =>
    intro cs hlen
    have : cs = [] := List.length_eq_zero.mp (Nat.le_zero.mp hlen)
    subst this
    rw [scanMP]
    have hta : tryAt [] = none := rfl
    rw [hta]
    constructor
    · intro h
      simp at h
    · rintro ⟨pre, tok, ws, tail, heq, -, -, -, -⟩
      exact absurd heq.symm (by simp)
  | succ n ih =>
    intro cs hlen
    rw [scanMP]
    cases hta : tryAt cs with
    | some r =>
      simp only [Option.isSome_some, true_iff]
      obtain ⟨tok, ws, tail, heq, htok, hws, hwa⟩ :=
        tryAt_some_decomp cs (by rw [hta]; rfl)
      exact ⟨[], tok, ws, tail, by simpa using heq, Or.inl rfl, htok, hws, hwa⟩
    | none =>
      cases hdrop : cs.dropWhile (fun c => c ≠ '\n') with
      | nil =>
        simp only [Option.isSome_none, Bool.false_eq_true, false_iff]
        rintro ⟨pre, tok, ws, tail, heq, hpre, htok, hws, hwa⟩
        rcases hpre with rfl | ⟨q, rfl⟩
        · rw [List.nil_append] at heq
          subst heq
          have hcontra := tryAt_of_decomp tok ws tail htok hws hwa
          rw [hta] at hcontra
          cases hcontra
        · have hnl : '\n' ∈ cs := by
            rw [heq]
            simp
          have hall := List.dropWhile_eq_nil_iff.mp hdrop
          have := hall '\n' hnl
          simp at this
      | cons d after =>
        have hd : d = '\n' := by
          have := dropWhile_head_false hdrop
          simpa using this
        subst hd
        have hsplit : cs = cs.takeWhile (fun c => c ≠ '\n') ++ '\n' :: after := by
          have h0 := List.takeWhile_append_dropWhile (fun c => decide (c ≠ '\n')) cs
          rw [hdrop] at h0
          exact h0.symm
        have hAfree : ∀ c ∈ cs.takeWhile (fun c => c ≠ '\n'), ¬c = '\n' := by
          intro c hc
          have := List.mem_takeWhile_imp hc
          simpa using this
        have hlen2 : after.length ≤ n := by
          have h0 : (cs.takeWhile (fun c => c ≠ '\n') ++ '\n' :: after).length = cs.length := by
            rw [← hsplit]
          simp only [List.length_append, List.length_cons] at h0
          omega
        have hih := ih after hlen2
        constructor
        · intro h
          obtain ⟨pre2, tok, ws, tail, heq2, hpre2, htok, hws, hwa⟩ := hih.mp h
          refine ⟨cs.takeWhile (fun c => c ≠ '\n') ++ '\n' :: pre2, tok, ws, tail, ?_, ?_, htok, hws, hwa⟩
          · calc cs = cs.takeWhile (fun c => c ≠ '\n') ++ '\n' :: after := hsplit
              _ = cs.takeWhile (fun c => c ≠ '\n') ++ '\n' ::
                    (pre2 ++ (tok ++ (ws ++ '/' :: tail))) := by rw [heq2]
              _ = (cs.takeWhile (fun c => c ≠ '\n') ++ '\n' :: pre2) ++
                    (tok ++ (ws ++ '/' :: tail)) := by simp
          · rcases hpre2 with rfl | ⟨q2, rfl⟩
            · exact Or.inr ⟨cs.takeWhile (fun c => c ≠ '\n'), by simp⟩
            · exact Or.inr ⟨cs.takeWhile (fun c => c ≠ '\n') ++ '\n' :: q2, by simp⟩
        · rintro ⟨pre, tok, ws, tail, heq, hpre, htok, hws, hwa⟩
          rcases hpre with rfl | ⟨q, rfl⟩
          · rw [List.nil_append] at heq
            subst heq
            have hcontra := tryAt_of_decomp tok ws tail htok hws hwa
            rw [hta] at hcontra
            cases hcontra
          · apply hih.mpr
            have heq2 : cs = q ++ '\n' :: (tok ++ (ws ++ '/' :: tail)) := by
              rw [heq]
              simp
            by_cases hq : '\n' ∈ q
            · cases hqd : q.dropWhile (fun c => c ≠ '\n') with
              | nil =>
                exfalso
                have hall := List.dropWhile_eq_nil_iff.mp hqd
                have := hall '\n' hq
                simp at this
              | cons d2 bq =>
                have hd2 : d2 = '\n' := by
                  have := dropWhile_head_false hqd
                  simpa using this
                subst hd2
                have hqsplit : q = q.takeWhile (fun c => c ≠ '\n') ++ '\n' :: bq := by
                  have h0 := List.takeWhile_append_dropWhile (fun c => decide (c ≠ '\n')) q
                  rw [hqd] at h0
                  exact h0.symm
                have haqfree : ∀ c ∈ q.takeWhile (fun c => c ≠ '\n'), ¬c = '\n' := by
                  intro c hc
                  simpa using List.mem_takeWhile_imp hc
                have hcs2 : cs = q.takeWhile (fun c => c ≠ '\n') ++
                    '\n' :: (bq ++ '\n' :: (tok ++ (ws ++ '/' :: tail))) := by
                  calc cs = q ++ '\n' :: (tok ++ (ws ++ '/' :: tail)) := heq2
                    _ = (q.takeWhile (fun c => c ≠ '\n') ++ '\n' :: bq) ++
                          '\n' :: (tok ++ (ws ++ '/' :: tail)) :=
                        congrArg (fun t => t ++ ('\n' :: (tok ++ (ws ++ '/' :: tail)))) hqsplit
                    _ = q.takeWhile (fun c => c ≠ '\n') ++
                          '\n' :: (bq ++ '\n' :: (tok ++ (ws ++ '/' :: tail))) := by simp
                have hdrop2 : cs.dropWhile (fun c => c ≠ '\n')
                    = '\n' :: (bq ++ '\n' :: (tok ++ (ws ++ '/' :: tail))) := by
                  rw [hcs2]
                  exact dropWhile_append_stop _ _ '\n'
                    (fun c hc => by simpa using haqfree c hc) (by decide)
                have hafter : after = bq ++ '\n' :: (tok ++ (ws ++ '/' :: tail)) := by
                  rw [hdrop] at hdrop2
                  exact (List.cons.injEq _ _ _ _).mp hdrop2 |>.2
                refine ⟨bq ++ ['\n'], tok, ws, tail, ?_, Or.inr ⟨bq, rfl⟩, htok, hws, hwa⟩
                rw [hafter]
                simp
            · have hqfree : ∀ c ∈ q, ¬c = '\n' := by
                intro c hc hcn
                exact hq (hcn ▸ hc)
              have hdrop2 : cs.dropWhile (fun c => c ≠ '\n')
                  = '\n' :: (tok ++ (ws ++ '/' :: tail)) := by
                rw [heq2]
                exact dropWhile_append_stop _ _ '\n'
                  (fun c hc => by simpa using hqfree c hc) (by decide)
              have hafter : after = tok ++ (ws ++ '/' :: tail) := by
                rw [hdrop] at hdrop2
                exact (List.cons.injEq _ _ _ _).mp hdrop2 |>.2
              exact ⟨[], tok, ws, tail, by simpa using hafter, Or.inl rfl, htok, hws, hwa⟩

/-- C6: the code-block strategy (Strategy B, `parseEndpointFromText`)
yields an endpoint for a block exactly when some line of the block starts
with one of GET, POST, PUT or DELETE (case-insensitive) followed by
whitespace and a path beginning with `/`; in particular a block whose only
method line uses PATCH produces no match of this shape, so Strategy B
yields no endpoint and the block is skipped without error (`none`, not an
exception). -/
theorem c6_code_block_method_gate (jp : String → Option Json) (text : String) :
    (parseEndpointFromText jp text).isSome = true ↔ MethodLineMatch text.data := by
  have hsame : (parseEndpointFromText jp text).isSome = (scanMP text.data).isSome := by
    unfold parseEndpointFromText
    cases h : scanMP text.data with
    | none => simp
    | some mp => simp
  rw [hsame]
  exact scanMP_isSome_iff text.data.length text.data (le_refl _)

end MockMock
